import Mathlib

/-!
Verification of the watchbill fair-assignment engine (`main.py`).

The Python program is a single class `Watchbill` driving the CP-SAT solver of
OR-Tools.  This development is a shallow embedding of that class:

* `WB` is the mutable object state (calendar size, roster size, spacing, day
  costs, availability matrices, accumulating final schedule, duty bounds).
* The constraint model built by `build_model` is embedded semantically:
  `build_model_sat w A` decides whether a boolean shift assignment `A`
  satisfies every hard constraint the Python code adds to the CP model for
  state `w`.  The external solver is abstracted as an oracle
  `WB → Option Sol`; a sound oracle only returns assignments satisfying the
  model (`SoundOracle`).  The linear objective (minimize worst minus best
  deal) only influences which feasible assignment an optimal solver returns,
  and is therefore absorbed into the oracle's freedom.
* `solve_model`, `find_assignments`, `assign`, `unassign`, `is_assigned`,
  `iterate_assignment` and `develop` mirror the corresponding methods,
  including the relaxation ladder, the good/bad extremal partition, the
  speculative trial-and-rollback loop and the coin flip (`rng`).
* `parse_list` is embedded over Lean lists with genuine Python list-index
  semantics (negative indices wrap, out-of-range raises).
* Dates are reduced to day indices: `num_days = (end_date - start_date).days
  + 1`, `first_monday = (7 - start_date.weekday()) % 7`, and the pandas
  federal-holiday calendar is an external oracle `Nat → Bool` over day
  indices.  A `deadlock` error carries the day index; the Python message
  prints `start_date + timedelta(days=index)`.
-/

set_option maxHeartbeats 1000000

namespace Watchbill

/-- Shift assignment produced by the external solver: `A p d = true` when
watchstander `p` stands duty on day index `d` (the value of the CP variable
`shifts[(p, d)]`). -/
abbrev Sol := Nat → Nat → Bool

/-- State of a `Watchbill` object.  Matrices are total boolean functions on
(person index, day index); only indices below `num_watchstanders` and
`num_days` are ever consulted, matching the Python list shapes. -/
structure WB where
  num_days : Nat
  num_watchstanders : Nat
  days_off_between_duty : Nat
  day_costs : Nat → Nat
  schedule_conflicts : Nat → Nat → Bool
  locked_in_days : Nat → Nat → Bool
  final_schedule : Nat → Nat → Bool
  min_days : Nat
  max_days : Nat

/-- Numeric value of a boolean CP variable. -/
def boolNat (b : Bool) : Nat := if b then 1 else 0

/-- Weekend test inside `assign_day_costs`: `(i - first_monday) % 7 in [5, 6]`.
Python `%` on integers returns a nonnegative remainder, hence `Int` emod. -/
def isWeekend (first_monday i : Nat) : Bool :=
  ((i : Int) - (first_monday : Int)) % 7 == 5 || ((i : Int) - (first_monday : Int)) % 7 == 6

/-- Membership in the `day_off_set` built by `assign_day_costs`: weekend
indices are collected for `i in range(num_days + 1)`, while holiday indices
come from `cal.holidays(start=start_date, end=end_date)` and therefore only
cover indices `0 .. num_days - 1`.  `holiday` is the external federal-holiday
calendar by day index. -/
def dayOff (num_days first_monday : Nat) (holiday : Nat → Bool) (i : Nat) : Bool :=
  (decide (i ≤ num_days) && isWeekend first_monday i) ||
    (decide (i < num_days) && holiday i)

/-- Cost of day `i` per `assign_day_costs`: 7 for off→off, 6 for off→work,
5 for work→off, 4 for work→work, the pair being `(day i, day i+1)` classified
by `dayOff`. -/
def day_cost (num_days first_monday : Nat) (holiday : Nat → Bool) (i : Nat) : Nat :=
  if dayOff num_days first_monday holiday i then
    (if dayOff num_days first_monday holiday (i + 1) then 7 else 6)
  else
    (if dayOff num_days first_monday holiday (i + 1) then 5 else 4)

/-- Modelled from the spec (sentence behind claim C9): a successor
classification that consults the holiday oracle for the day after `end_date`
(index `num_days`) exactly as it consults the weekend pattern there.  The code
version `dayOff` only consults `holiday` below `num_days`. -/
def dayOffSpecC9 (num_days first_monday : Nat) (holiday : Nat → Bool) (i : Nat) : Bool :=
  (decide (i ≤ num_days) && isWeekend first_monday i) ||
    (decide (i ≤ num_days) && holiday i)

/-- Modelled from the spec: `day_cost` recomputed with the claim-C9 boundary
classification `dayOffSpecC9`. -/
def day_cost_specC9 (num_days first_monday : Nat) (holiday : Nat → Bool) (i : Nat) : Nat :=
  if dayOffSpecC9 num_days first_monday holiday i then
    (if dayOffSpecC9 num_days first_monday holiday (i + 1) then 7 else 6)
  else
    (if dayOffSpecC9 num_days first_monday holiday (i + 1) then 5 else 4)

/-- Configuration handed to the `Watchbill` constructor, with dates reduced to
day indices and the availability matrices as populated by the `parse_*` calls
that run before `develop`. -/
structure WBConfig where
  num_days : Nat
  first_monday : Nat
  days_off_between_duty : Nat
  num_watchstanders : Nat
  holiday : Nat → Bool
  schedule_conflicts : Nat → Nat → Bool
  locked_in_days : Nat → Nat → Bool

/-- State built by `Watchbill.__init__`: empty final schedule, day costs from
`assign_day_costs`, and `min_days`/`max_days` computed once from `num_days`
and the roster size (`min_days = num_days // num_watchstanders`, `max_days`
equal or one more depending on divisibility). -/
def initWB (c : WBConfig) : WB :=
  { num_days := c.num_days
    num_watchstanders := c.num_watchstanders
    days_off_between_duty := c.days_off_between_duty
    day_costs := day_cost c.num_days c.first_monday c.holiday
    schedule_conflicts := c.schedule_conflicts
    locked_in_days := c.locked_in_days
    final_schedule := fun _ _ => false
    min_days := c.num_days / c.num_watchstanders
    max_days :=
      if c.num_days % c.num_watchstanders = 0 then c.num_days / c.num_watchstanders
      else c.num_days / c.num_watchstanders + 1 }

/-- Number of `True` cells in day column `d` of the final schedule. -/
def colSum (w : WB) (d : Nat) : Nat :=
  ((List.range w.num_watchstanders).map (fun p => boolNat (w.final_schedule p d))).sum

/-- Test of `build_model`, line "If the day is assigned already": some
watchstander already occupies day `d` in the final schedule. -/
def dayClaimed (w : WB) (d : Nat) : Bool :=
  (List.range w.num_watchstanders).any fun p => w.final_schedule p d

/-- Embedding of `Watchbill.is_assigned`: the watchstander has at least one
`True` day on the final schedule. -/
def is_assigned (w : WB) (p : Nat) : Bool :=
  (List.range w.num_days).any fun d => w.final_schedule p d

/-- Sum of the shift variables of day `d` over the whole roster. -/
def shiftColSum (w : WB) (A : Sol) (d : Nat) : Nat :=
  ((List.range w.num_watchstanders).map (fun p => boolNat (A p d))).sum

/-- Sum of the shift variables of watchstander `p` over all days
(`num_days_worked`). -/
def shiftRowSum (w : WB) (A : Sol) (p : Nat) : Nat :=
  ((List.range w.num_days).map (fun d => boolNat (A p d))).sum

/-- Sum of `shifts[(p, i)]` for `i in range(d, d + days_off_between_duty + 1)`. -/
def windowSum (w : WB) (A : Sol) (p d : Nat) : Nat :=
  ((List.range (w.days_off_between_duty + 1)).map (fun j => boolNat (A p (d + j)))).sum

/-- Spacing window sum over the final schedule (used to state claim C6). -/
def finalWindowSum (w : WB) (p d : Nat) : Nat :=
  ((List.range (w.days_off_between_duty + 1)).map
    (fun j => boolNat (w.final_schedule p (d + j)))).sum

/-- Single-coverage constraints of `build_model`: on a claimed day the shift
sum over everyone is 0, otherwise it is exactly 1. -/
def coverOK (w : WB) (A : Sol) : Bool :=
  (List.range w.num_days).all fun d =>
    if dayClaimed w d then shiftColSum w A d == 0 else shiftColSum w A d == 1

/-- Total-duty constraints of `build_model`: an already-assigned watchstander
gets the sum-0 constraint, everyone else the `[min_days, max_days]` bounds. -/
def boundsOK (w : WB) (A : Sol) : Bool :=
  (List.range w.num_watchstanders).all fun p =>
    if is_assigned w p then shiftRowSum w A p == 0
    else decide (w.min_days ≤ shiftRowSum w A p) && decide (shiftRowSum w A p ≤ w.max_days)

/-- Spacing constraints of `build_model`: for every watchstander and every
`d in range(num_days - days_off_between_duty)` the window sum is at most 1. -/
def spacingOK (w : WB) (A : Sol) : Bool :=
  (List.range w.num_watchstanders).all fun p =>
    (List.range (w.num_days - w.days_off_between_duty)).all fun d =>
      decide (windowSum w A p d ≤ 1)

/-- Conflict/lock-in constraints of `build_model`: a conflicted cell is forced
to 0; otherwise (note the Python `elif`) a locked-in cell is forced to 1. -/
def availOK (w : WB) (A : Sol) : Bool :=
  (List.range w.num_watchstanders).all fun p =>
    (List.range w.num_days).all fun d =>
      if w.schedule_conflicts p d then A p d == false
      else if w.locked_in_days p d then A p d == true
      else true

/-- Semantic content of the model produced by `build_model` at state `w`:
`A` satisfies every hard constraint.  The objective only selects among the
satisfying assignments and is absorbed into the solver oracle. -/
def build_model_sat (w : WB) (A : Sol) : Bool :=
  coverOK w A && boundsOK w A && spacingOK w A && availOK w A

/-- Embedding of `Watchbill.assign`: copy the solver's `True` days of
watchstander `p` into the final schedule (days `0 .. num_days - 1` only). -/
def assign (w : WB) (A : Sol) (p : Nat) : WB :=
  { w with final_schedule := fun q d =>
      w.final_schedule q d || (decide (q = p) && decide (d < w.num_days) && A p d) }

/-- Embedding of `Watchbill.unassign`: blank watchstander `p`'s row for days
`0 .. num_days - 1`. -/
def unassign (w : WB) (p : Nat) : WB :=
  { w with final_schedule := fun q d =>
      if q = p ∧ d < w.num_days then false else w.final_schedule q d }

/-- Failures raised by `solve_model`: the schedule-conflict deadlock message
(carrying the day index; Python prints `start_date + timedelta(days=day)`) and
the generic "Unable to solve model" exception. -/
inductive WBError where
  | deadlock (day : Nat)
  | unsatisfiable
deriving DecidableEq

/-- Day scan of `solve_model`'s failure analysis: the first day on which every
watchstander in the roster (assigned or not) has a schedule conflict. -/
def deadlockDay (w : WB) : Option Nat :=
  (List.range w.num_days).find? fun d =>
    (List.range w.num_watchstanders).all fun p => w.schedule_conflicts p d

/-- Relaxation step of `solve_model`: `max_days += 1`, `min_days -= 1`. -/
def relax (w : WB) : WB :=
  { w with min_days := w.min_days - 1, max_days := w.max_days + 1 }

/-- Recursion of `solve_model`, structurally on a fuel argument that every
call keeps equal to `min_days` (each relaxation decrements both), so the
fuel-exhaustion arm coincides with the Python `min_days == 0` arm.  On solver
infeasibility: first the deadlock scan, then relaxation while `min_days > 0`,
finally the unsatisfiable error. -/
def solve_model_go (oracle : WB → Option Sol) : Nat → WB → Except WBError (WB × Sol)
  | fuel, w =>
    match oracle w with
    | some A => .ok (w, A)
    | none =>
      match deadlockDay w with
      | some d => .error (.deadlock d)
      | none =>
        match fuel with
        | f + 1 =>
          if 0 < w.min_days then solve_model_go oracle f (relax w)
          else .error .unsatisfiable
        | 0 => .error .unsatisfiable

/-- Embedding of `Watchbill.solve_model` (together with the `build_model`
rebuild inside the relaxation loop, which in this semantic embedding is just
the state change performed by `relax`). -/
def solve_model (oracle : WB → Option Sol) (w : WB) : Except WBError (WB × Sol) :=
  solve_model_go oracle w.min_days w

/-- Result tuple of `find_assignments`: the (possibly relaxed) state, the
solver assignment, the good and bad index lists and the badness variance. -/
structure FA where
  wb : WB
  sol : Sol
  good : List Nat
  bad : List Nat
  var : ℚ

/-- Badness the solver assignment gives watchstander `p`: the cost-weighted
sum of the assigned days. -/
def badnessOf (w : WB) (A : Sol) (p : Nat) : Nat :=
  ((List.range w.num_days).map (fun d => w.day_costs d * boolNat (A p d))).sum

/-- Indices of watchstanders not assigned yet (`badness_index`), in roster
order. -/
def open_idx (w : WB) : List Nat :=
  (List.range w.num_watchstanders).filter fun p => ! is_assigned w p

/-- Badness scores of the open watchstanders (`badness_list`). -/
def badness_list (w : WB) (A : Sol) : List Nat :=
  (open_idx w).map (badnessOf w A)

/-- Sample variance as computed by `statistics.variance` (denominator
`n - 1`), in exact rationals. -/
def sampleVariance (l : List Nat) : ℚ :=
  let n : ℚ := l.length
  let m : ℚ := ((l.map (fun x => (x : ℚ))).sum) / n
  ((l.map (fun x => ((x : ℚ) - m) ^ 2)).sum) / (n - 1)

/-- Variance returned by `find_assignments`: `variance(badness_list)` when the
list has more than one element, else 0. -/
def varOf (w : WB) (A : Sol) : ℚ :=
  if (badness_list w A).length > 1 then sampleVariance (badness_list w A) else 0

/-- Good assignments: open watchstanders whose badness attains
`min(badness_list)` (empty when no one is open, as the Python comprehension
then never evaluates `min`). -/
def goodOf (w : WB) (A : Sol) : List Nat :=
  (open_idx w).filter fun p => (badness_list w A).min? == some (badnessOf w A p)

/-- Bad assignments: open watchstanders whose badness attains
`max(badness_list)`. -/
def badOf (w : WB) (A : Sol) : List Nat :=
  (open_idx w).filter fun p => (badness_list w A).max? == some (badnessOf w A p)

/-- Embedding of `Watchbill.find_assignments`: build and solve the model and
return the solver result plus the extremal partition and the badness
variance. -/
def find_assignments (oracle : WB → Option Sol) (w : WB) : Except WBError FA :=
  match solve_model oracle w with
  | .error e => .error e
  | .ok (w1, A) => .ok ⟨w1, A, goodOf w1 A, badOf w1 A, varOf w1 A⟩

/-- Speculative trial loop of `iterate_assignment`: tentatively assign each
candidate, re-solve, record the variance, roll the candidate back, and keep
the candidate of minimal variance; on an exact tie a coin flip (`rng` at the
running counter `k`) decides whether to switch.  `none` for the running
minimum plays the role of `float('inf')`. -/
def spec_loop (oracle : WB → Option Sol) (rng : Nat → Bool) (A : Sol) :
    List Nat → WB → Option ℚ → Option Nat → Nat → Except WBError (WB × Option Nat × Nat)
  | [], w, _, sel, k => .ok (w, sel, k)
  | i :: rest, w, mv, sel, k =>
    match find_assignments oracle (assign w A i) with
    | .error e => .error e
    | .ok fa =>
      match mv with
      | none => spec_loop oracle rng A rest (unassign fa.wb i) (some fa.var) (some i) k
      | some m =>
        if fa.var < m then
          spec_loop oracle rng A rest (unassign fa.wb i) (some fa.var) (some i) k
        else if fa.var = m then
          spec_loop oracle rng A rest (unassign fa.wb i) mv
            (if rng k then some i else sel) (k + 1)
        else spec_loop oracle rng A rest (unassign fa.wb i) mv sel k

/-- Resolution of one extremal subset inside `iterate_assignment`: a singleton
is committed directly, otherwise the speculative trial loop picks the
candidate and commits it.  The `none` selector arm is unreachable for the
nonempty subsets the caller passes (Python would raise there); committing
nothing keeps the embedding total. -/
def process_subset (oracle : WB → Option Sol) (rng : Nat → Bool) (A : Sol)
    (w : WB) (subset : List Nat) (k : Nat) : Except WBError (WB × Nat) :=
  match subset with
  | [i] => .ok (assign w A i, k)
  | _ =>
    match spec_loop oracle rng A subset w none none k with
    | .error e => .error e
    | .ok (w1, some i, k1) => .ok (assign w1 A i, k1)
    | .ok (w1, none, k1) => .ok (w1, k1)

/-- Embedding of `Watchbill.iterate_assignment`: solve, partition the open
watchstanders into good and bad, commit everyone on an all-tie, otherwise
resolve the good then the bad subset. -/
def iterate_assignment (oracle : WB → Option Sol) (rng : Nat → Bool)
    (w : WB) (k : Nat) : Except WBError (WB × Nat) :=
  match find_assignments oracle w with
  | .error e => .error e
  | .ok fa =>
    if fa.good.isEmpty || fa.bad.isEmpty then .ok (fa.wb, k)
    else if fa.good = fa.bad then
      .ok (fa.good.foldl (fun wa i => assign wa fa.sol i) fa.wb, k)
    else
      match process_subset oracle rng fa.sol fa.wb fa.good k with
      | .error e => .error e
      | .ok (w2, k2) =>
        match process_subset oracle rng fa.sol w2 fa.bad k2 with
        | .error e => .error e
        | .ok (w3, k3) => .ok (w3, k3)

/-- Round loop of `develop`: `for i in range(num_watchstanders)`, threading the
state and the coin counter. -/
def develop_go (oracle : WB → Option Sol) (rng : Nat → Bool) :
    Nat → WB → Nat → Except WBError (WB × Nat)
  | 0, w, k => .ok (w, k)
  | n + 1, w, k =>
    match iterate_assignment oracle rng w k with
    | .error e => .error e
    | .ok (w1, k1) => develop_go oracle rng n w1 k1

/-- Embedding of `Watchbill.develop`: exactly `num_watchstanders` rounds of
`iterate_assignment`. -/
def develop (oracle : WB → Option Sol) (rng : Nat → Bool) (w : WB) :
    Except WBError WB :=
  match develop_go oracle rng w.num_watchstanders w 0 with
  | .error e => .error e
  | .ok (w1, _) => .ok w1

/-- Solver-adapter soundness: an assignment reported OPTIMAL satisfies every
hard constraint of the built model.  This is all the theorems below consume
from the external solver; its optimality only narrows which feasible
assignment comes back. -/
def SoundOracle (oracle : WB → Option Sol) : Prop :=
  ∀ w A, oracle w = some A → build_model_sat w A = true

/-- Honest finite solver used for the concrete runs: return the first
candidate assignment satisfying the model, if any. -/
def oracleOf (cands : List Sol) : WB → Option Sol :=
  fun w => cands.find? fun A => build_model_sat w A

/-- Number of days not yet claimed by the final schedule (the spec's
"remaining open days"). -/
def openDayCount (w : WB) : Nat :=
  ((List.range w.num_days).filter fun d => ! dayClaimed w d).length

/-- Number of watchstanders not yet assigned (the spec's "remaining open
people"). -/
def openCount (w : WB) : Nat := (open_idx w).length

/-- Modelled from the spec (claim C3): per-round recomputed minimum duty
bound, `openDays / openPeople` with integer division. -/
def spec_min_days (openDays openPeople : Nat) : Nat := openDays / openPeople

/-- Modelled from the spec (claim C3): per-round recomputed maximum duty
bound, equal to the minimum when divisible, else one more. -/
def spec_max_days (openDays openPeople : Nat) : Nat :=
  if openDays % openPeople = 0 then openDays / openPeople
  else openDays / openPeople + 1

/-- Failures raised by `parse_list`: `ValueError` from `list.index` on an
identifier missing from the roster, and `IndexError` from an out-of-range
Python list write. -/
inductive ParseError where
  | unknownPerson
  | indexError
deriving DecidableEq

/-- Python list assignment `l[i] = True`: in-range nonnegative indices write
directly, negative indices down to `-len(l)` wrap around to the end, and
anything else raises `IndexError` (`none`). -/
def pySetTrue (l : List Bool) (i : Int) : Option (List Bool) :=
  if 0 ≤ i ∧ i < (l.length : Int) then some (l.set i.toNat true)
  else if -(l.length : Int) ≤ i ∧ i < 0 then some (l.set ((l.length : Int) + i).toNat true)
  else none

/-- Loop body of the ranged branch of `parse_list`: apply `row[i] = True` for
`count` successive indices starting at `i`, aborting at the first
`IndexError` as the Python exception would. -/
def markCount (row : List Bool) (i : Int) : Nat → Option (List Bool)
  | 0 => some row
  | n + 1 =>
    match pySetTrue row i with
    | none => none
    | some row1 => markCount row1 (i + 1) n

/-- Python `for i in range(first, last + 1): row[i] = True`. -/
def markRange (row : List Bool) (first last : Int) : Option (List Bool) :=
  markCount row first (last + 1 - first).toNat

/-- Embedding of `Watchbill.parse_list`.  `entry = (name, first, last?)` with
`first`/`last` the day offsets `(date - start_date).days` of the human-readable
rule; `roster` is `all_watchstanders` (identifiers encoded as naturals) and
`out` the conflict or locked-in matrix.  `list.index` raising `ValueError` is
`unknownPerson`; an out-of-range list write is `indexError`. -/
def parse_list (roster : List Nat) (entry : Nat × Int × Option Int)
    (out : List (List Bool)) : Except ParseError (List (List Bool)) :=
  match roster.findIdx? (fun a => a == entry.1) with
  | none => .error .unknownPerson
  | some widx =>
    match entry.2.2 with
    | some last =>
      match markRange (out.getD widx []) entry.2.1 last with
      | none => .error .indexError
      | some row1 => .ok (out.set widx row1)
    | none =>
      match pySetTrue (out.getD widx []) entry.2.1 with
      | none => .error .indexError
      | some row1 => .ok (out.set widx row1)

/-! ## Concrete configurations, solver candidates and runs used by witnesses
and counterexamples.  Calendar data below: weekday offsets come from
`first_monday = (7 - start_date.weekday()) % 7`, e.g. 6 for a Tuesday start
and 4 for a Thursday start; the holiday oracle is empty unless stated. -/

/-- Empty solver assignment. -/
def solZero : Sol := fun _ _ => false

/-- Deterministic coin stream: every flip is 0. -/
def rngFalse : Nat → Bool := fun _ => false

/-- One watchstander, one Tuesday, no availability rules. -/
def cfgC1w : WBConfig :=
  ⟨1, 6, 0, 1, fun _ => false, fun _ _ => false, fun _ _ => false⟩

/-- Assignment giving watchstander 0 the single day. -/
def solC1w : Sol := fun p d => p == 0 && d == 0

def oracleC1w : WB → Option Sol := oracleOf [solC1w, solZero]

/-- Final state of the one-person one-day run. -/
def outC1w : WB :=
  match develop oracleC1w rngFalse (initWB cfgC1w) with
  | .ok w => w
  | .error _ => initWB cfgC1w

/-- One watchstander, one day, locked in on that day. -/
def cfgC2w : WBConfig :=
  ⟨1, 6, 0, 1, fun _ => false, fun _ _ => false, fun p d => p == 0 && d == 0⟩

def oracleC2w : WB → Option Sol := oracleOf [solC1w, solZero]

def outC2w : WB :=
  match develop oracleC2w rngFalse (initWB cfgC2w) with
  | .ok w => w
  | .error _ => initWB cfgC2w

/-- Two watchstanders, two workdays, spacing 1, no availability rules. -/
def cfgC6w : WBConfig :=
  ⟨2, 6, 1, 2, fun _ => false, fun _ _ => false, fun _ _ => false⟩

/-- Assignment giving watchstander 0 day 0 and watchstander 1 day 1. -/
def solC6w : Sol := fun p d => (p == 0 && d == 0) || (p == 1 && d == 1)

def oracleC6w : WB → Option Sol := oracleOf [solC6w, solZero]

def outC6w : WB :=
  match develop oracleC6w rngFalse (initWB cfgC6w) with
  | .ok w => w
  | .error _ => initWB cfgC6w

/-- Three watchstanders over four days Thursday..Sunday (day costs 4,5,7,6),
spacing 0, no availability rules.  Initial bounds: `min_days = 1`,
`max_days = 2`. -/
def cfgC3x : WBConfig :=
  ⟨4, 4, 0, 3, fun _ => false, fun _ _ => false, fun _ _ => false⟩

/-- Optimal round-1 assignment: watchstander 0 takes days 0 and 2 (badness
11), watchstander 1 day 1 (badness 5), watchstander 2 day 3 (badness 6); good
and bad subsets are the singletons 1 and 0, which both get committed. -/
def solC3x : Sol := fun p d =>
  (p == 0 && (d == 0 || d == 2)) || (p == 1 && d == 1) || (p == 2 && d == 3)

def oracleC3x : WB → Option Sol := oracleOf [solC3x]

/-- State after round 1 of the `cfgC3x` run: two watchstanders finalized,
one open day and one open watchstander remain, and the stored bounds are
still `(1, 2)`. -/
def outC3x : WB :=
  match iterate_assignment oracleC3x rngFalse (initWB cfgC3x) 0 with
  | .ok (w, _) => w
  | .error _ => initWB cfgC3x

/-- State returned by a direct `solve_model` call on the `cfgC3x` start
state (no relaxation is needed there). -/
def solveOutC3 : WB :=
  match solve_model oracleC3x (initWB cfgC3x) with
  | .ok (w, _) => w
  | .error _ => initWB cfgC3x

/-- Assignment returned by that same `solve_model` call. -/
def solveSolC3 : Sol :=
  match solve_model oracleC3x (initWB cfgC3x) with
  | .ok (_, A) => A
  | .error _ => solZero

/-- Two watchstanders, two workdays, watchstander 0 locked in on day 0. -/
def cfgC4x : WBConfig :=
  ⟨2, 6, 0, 2, fun _ => false, fun _ _ => false, fun p d => p == 0 && d == 0⟩

/-- Round-1 assignment for `cfgC4x`: both day costs are 4, so the badness tie
commits both watchstanders at once and the open set empties after round 1. -/
def solC4x : Sol := fun p d => (p == 0 && d == 0) || (p == 1 && d == 1)

def oracleC4x : WB → Option Sol := oracleOf [solC4x]

/-- State after round 1 of the `cfgC4x` run: everyone finalized. -/
def outC4x : WB :=
  match iterate_assignment oracleC4x rngFalse (initWB cfgC4x) 0 with
  | .ok (w, _) => w
  | .error _ => initWB cfgC4x

/-- The `cfgC4x` scenario without the lock, so that the round executed after
the open set empties succeeds (and commits nothing). -/
def cfgC4w : WBConfig :=
  ⟨2, 6, 0, 2, fun _ => false, fun _ _ => false, fun _ _ => false⟩

def oracleC4w : WB → Option Sol := oracleOf [solC4x, solZero]

def outC4w : WB :=
  match iterate_assignment oracleC4w rngFalse (initWB cfgC4w) 0 with
  | .ok (w, _) => w
  | .error _ => initWB cfgC4w

def outC4w2 : WB :=
  match iterate_assignment oracleC4w rngFalse outC4w 0 with
  | .ok (w, _) => w
  | .error _ => outC4w

/-- Coin counter returned alongside `outC4w2`. -/
def kC4w2 : Nat :=
  match iterate_assignment oracleC4w rngFalse outC4w 0 with
  | .ok (_, k) => k
  | .error _ => 0

/-- Two watchstanders, one day: watchstander 0 (the only one who will remain
open) is conflicted on day 0, watchstander 1 is locked in on day 0. -/
def cfgC5x : WBConfig :=
  ⟨1, 6, 0, 2, fun _ => false, fun p d => p == 0 && d == 0,
    fun p d => p == 1 && d == 0⟩

/-- Assignment placing watchstander 1 on their locked day. -/
def solC5x : Sol := fun p d => p == 1 && d == 0

/-- State with watchstander 1 finalized on their locked day 0: every open
watchstander (only 0 remains) is conflicted on day 0, but watchstander 1 is
not, and the model is infeasible at every duty bound. -/
def stateC5x : WB := assign (initWB cfgC5x) solC5x 1

/-- One watchstander, one day, conflicted on it: a genuine deadlock. -/
def cfgC5w : WBConfig :=
  ⟨1, 6, 0, 1, fun _ => false, fun p d => p == 0 && d == 0, fun _ _ => false⟩

/-- Two watchstanders, one day; watchstander 0 is marked BOTH conflicted and
locked in on day 0 — the configuration claim C7 says must be rejected. -/
def cfgC7x : WBConfig :=
  ⟨1, 6, 0, 2, fun _ => false, fun p d => p == 0 && d == 0,
    fun p d => p == 0 && d == 0⟩

/-- Assignment placing watchstander 1 on the single day. -/
def solC7x : Sol := fun p d => p == 1 && d == 0

def oracleC7x : WB → Option Sol := oracleOf [solC7x, solZero]

/-- Holiday oracle for the C9 boundary scenario: the only holiday is the day
after the three-day range 0..2. -/
def holC9x : Nat → Bool := fun i => i == 3

/-! ## Relations and invariants used by the verification -/

/-- Fields of the state that `develop` never mutates. -/
structure StaticEq (w w' : WB) : Prop where
  nd : w'.num_days = w.num_days
  nw : w'.num_watchstanders = w.num_watchstanders
  sp : w'.days_off_between_duty = w.days_off_between_duty
  dc : w'.day_costs = w.day_costs
  cf : w'.schedule_conflicts = w.schedule_conflicts
  lk : w'.locked_in_days = w.locked_in_days

/-- Cellwise equality of the final schedules of two states. -/
def FinalEq (w w' : WB) : Prop :=
  ∀ q d, w'.final_schedule q d = w.final_schedule q d

/-- Row `p` of `w` agrees with the round base state `b`. -/
def BaseRow (b w : WB) (p : Nat) : Prop :=
  ∀ d, w.final_schedule p d = b.final_schedule p d

/-- Row `p` of `w` is row `p` of `b` merged with the solver assignment,
restricted to the calendar range — the effect of `assign` on a row. -/
def CommittedRow (b : WB) (A : Sol) (w : WB) (p : Nat) : Prop :=
  ∀ d, w.final_schedule p d =
    (b.final_schedule p d || (decide (d < b.num_days) && A p d))

/-- Mid-round relation: `w` differs from the base state `b` only in that some
round-start-open rows have been committed from the solver assignment `A`. -/
def Mid (b : WB) (A : Sol) (w : WB) : Prop :=
  StaticEq b w ∧
    ∀ p, BaseRow b w p ∨ (is_assigned b p = false ∧ CommittedRow b A w p)

/-- At most one watchstander per day column. -/
def ColInv (w : WB) : Prop := ∀ d, d < w.num_days → colSum w d ≤ 1

/-- No conflicted cell is ever assigned. -/
def ConflictInv (w : WB) : Prop :=
  ∀ p d, p < w.num_watchstanders → d < w.num_days →
    w.schedule_conflicts p d = true → w.final_schedule p d = false

/-- A locked-in cell is assigned as soon as its watchstander is finalized. -/
def LockInv (w : WB) : Prop :=
  ∀ p d, p < w.num_watchstanders → d < w.num_days →
    w.locked_in_days p d = true →
    is_assigned w p = false ∨ w.final_schedule p d = true

/-- No two assigned days of one watchstander within a spacing window. -/
def SpacingInv (w : WB) : Prop :=
  ∀ p d, p < w.num_watchstanders → d < w.num_days - w.days_off_between_duty →
    finalWindowSum w p d ≤ 1

/-- Well-formedness of the availability matrices: no cell is marked both
conflict and locked-in (the spec's validity invariant for configurations). -/
def MutexFree (w : WB) : Prop :=
  ∀ p d, ¬(w.schedule_conflicts p d = true ∧ w.locked_in_days p d = true)

/-- Classification of a successful round relative to its base state `b` and
solver assignment `A`: either no one was open (nothing committed), or the
all-tie branch committed every open watchstander, or at least one member of
the bad extremal subset was committed. -/
def RoundOutcome (b : WB) (A : Sol) (w3 : WB) : Prop :=
  (open_idx b = [] ∧ FinalEq b w3) ∨
    (goodOf b A = open_idx b ∧ ∀ p ∈ open_idx b, CommittedRow b A w3 p) ∨
    (∃ i ∈ badOf b A, CommittedRow b A w3 i)

/-- Day costs are positive on the calendar range (true of every state built by
the constructor, whose costs lie in 4..7). -/
def CostPos (w : WB) : Prop := ∀ d, d < w.num_days → 0 < w.day_costs d

/-- Every day in range is claimed by the final schedule. -/
def AllClaimed (w : WB) : Prop := ∀ d, d < w.num_days → dayClaimed w d = true

/-! ## Basic facts about the embedded state -/

theorem boolNat_le_one (b : Bool) : boolNat b ≤ 1 := by cases b <;> simp [boolNat]

theorem boolNat_eq_zero_iff (b : Bool) : boolNat b = 0 ↔ b = false := by
  cases b <;> simp [boolNat]

theorem boolNat_eq_one_iff (b : Bool) : boolNat b = 1 ↔ b = true := by
  cases b <;> simp [boolNat]

theorem sum_map_add_nat (l : List Nat) (f g : Nat → Nat) :
    (l.map fun x => f x + g x).sum = (l.map f).sum + (l.map g).sum := by
  induction l with
  | nil => rfl
  | cons a t ih => simp [ih]; omega

theorem is_assigned_eq_true_iff (w : WB) (p : Nat) :
    is_assigned w p = true ↔ ∃ d, d < w.num_days ∧ w.final_schedule p d = true := by
  simp [is_assigned, List.any_eq_true, List.mem_range]

theorem is_assigned_eq_false_iff (w : WB) (p : Nat) :
    is_assigned w p = false ↔ ∀ d, d < w.num_days → w.final_schedule p d = false := by
  rw [← Bool.not_eq_true, is_assigned_eq_true_iff]
  push_neg
  constructor
  · intro h d hd
    exact Bool.eq_false_iff.mpr fun hT => (h d hd) hT
  · intro h d hd
    simp [h d hd]

theorem dayClaimed_eq_true_iff (w : WB) (d : Nat) :
    dayClaimed w d = true ↔ ∃ p, p < w.num_watchstanders ∧ w.final_schedule p d = true := by
  simp [dayClaimed, List.any_eq_true, List.mem_range]

theorem dayClaimed_eq_false_iff (w : WB) (d : Nat) :
    dayClaimed w d = false ↔ ∀ p, p < w.num_watchstanders → w.final_schedule p d = false := by
  rw [← Bool.not_eq_true, dayClaimed_eq_true_iff]
  push_neg
  constructor
  · intro h p hp
    exact Bool.eq_false_iff.mpr fun hT => (h p hp) hT
  · intro h p hp
    simp [h p hp]

theorem one_le_colSum_of_dayClaimed (w : WB) (d : Nat) (h : dayClaimed w d = true) :
    1 ≤ colSum w d := by
  obtain ⟨p, hp, hT⟩ := (dayClaimed_eq_true_iff w d).mp h
  have hmem : boolNat (w.final_schedule p d) ∈
      (List.range w.num_watchstanders).map (fun q => boolNat (w.final_schedule q d)) :=
    List.mem_map.mpr ⟨p, List.mem_range.mpr hp, rfl⟩
  have := List.single_le_sum (l :=
      (List.range w.num_watchstanders).map (fun q => boolNat (w.final_schedule q d)))
    (fun x _ => Nat.zero_le x) _ hmem
  simpa [colSum, hT, boolNat] using this

theorem colSum_eq_zero_iff (w : WB) (d : Nat) :
    colSum w d = 0 ↔ dayClaimed w d = false := by
  rw [colSum, List.sum_eq_zero_iff, dayClaimed_eq_false_iff]
  constructor
  · intro h p hp
    have := h (boolNat (w.final_schedule p d))
      (List.mem_map.mpr ⟨p, List.mem_range.mpr hp, rfl⟩)
    exact (boolNat_eq_zero_iff _).mp this
  · intro h x hx
    obtain ⟨p, hp, rfl⟩ := List.mem_map.mp hx
    exact (boolNat_eq_zero_iff _).mpr (h p (List.mem_range.mp hp))

theorem shiftColSum_eq_zero_iff (w : WB) (A : Sol) (d : Nat) :
    shiftColSum w A d = 0 ↔ ∀ p, p < w.num_watchstanders → A p d = false := by
  rw [shiftColSum, List.sum_eq_zero_iff]
  constructor
  · intro h p hp
    exact (boolNat_eq_zero_iff _).mp
      (h _ (List.mem_map.mpr ⟨p, List.mem_range.mpr hp, rfl⟩))
  · intro h x hx
    obtain ⟨p, hp, rfl⟩ := List.mem_map.mp hx
    exact (boolNat_eq_zero_iff _).mpr (h p (List.mem_range.mp hp))

theorem shiftRowSum_eq_zero_iff (w : WB) (A : Sol) (p : Nat) :
    shiftRowSum w A p = 0 ↔ ∀ d, d < w.num_days → A p d = false := by
  rw [shiftRowSum, List.sum_eq_zero_iff]
  constructor
  · intro h d hd
    exact (boolNat_eq_zero_iff _).mp
      (h _ (List.mem_map.mpr ⟨d, List.mem_range.mpr hd, rfl⟩))
  · intro h x hx
    obtain ⟨d, hd, rfl⟩ := List.mem_map.mp hx
    exact (boolNat_eq_zero_iff _).mpr (h d (List.mem_range.mp hd))

theorem shiftColSum_exists_of_pos (w : WB) (A : Sol) (d : Nat)
    (h : 0 < shiftColSum w A d) : ∃ p, p < w.num_watchstanders ∧ A p d = true := by
  by_contra hno
  push_neg at hno
  have : shiftColSum w A d = 0 := (shiftColSum_eq_zero_iff w A d).mpr fun p hp =>
    Bool.eq_false_iff.mpr fun hT => by
      have := hno p hp
      simp [hT] at this
  omega

theorem le_badnessOf (w : WB) (A : Sol) (p d : Nat) (hd : d < w.num_days)
    (hA : A p d = true) : w.day_costs d ≤ badnessOf w A p := by
  have hmem : w.day_costs d * boolNat (A p d) ∈
      (List.range w.num_days).map (fun e => w.day_costs e * boolNat (A p e)) :=
    List.mem_map.mpr ⟨d, List.mem_range.mpr hd, rfl⟩
  have := List.single_le_sum (l :=
      (List.range w.num_days).map (fun e => w.day_costs e * boolNat (A p e)))
    (fun x _ => Nat.zero_le x) _ hmem
  simpa [badnessOf, hA, boolNat] using this

theorem badnessOf_pos_exists (w : WB) (A : Sol) (p : Nat)
    (h : 0 < badnessOf w A p) : ∃ d, d < w.num_days ∧ A p d = true := by
  by_contra hno
  push_neg at hno
  have : badnessOf w A p = 0 := by
    rw [badnessOf, List.sum_eq_zero_iff]
    intro x hx
    obtain ⟨d, hd, rfl⟩ := List.mem_map.mp hx
    have hAd : A p d = false := Bool.eq_false_iff.mpr fun hT => by
      have := hno d (List.mem_range.mp hd)
      simp [hT] at this
    simp [hAd, boolNat]
  omega

/-! ## Extraction of the individual model constraints from a satisfying
assignment -/

theorem sat_parts (w : WB) (A : Sol) (h : build_model_sat w A = true) :
    coverOK w A = true ∧ boundsOK w A = true ∧ spacingOK w A = true ∧
      availOK w A = true := by
  simpa [build_model_sat, Bool.and_eq_true, and_assoc] using h

theorem sat_cover_claimed (w : WB) (A : Sol) (d : Nat)
    (h : build_model_sat w A = true) (hd : d < w.num_days)
    (hc : dayClaimed w d = true) : shiftColSum w A d = 0 := by
  have hcov := (sat_parts w A h).1
  rw [coverOK, List.all_eq_true] at hcov
  have := hcov d (List.mem_range.mpr hd)
  simpa [hc] using this

theorem sat_cover_unclaimed (w : WB) (A : Sol) (d : Nat)
    (h : build_model_sat w A = true) (hd : d < w.num_days)
    (hc : dayClaimed w d = false) : shiftColSum w A d = 1 := by
  have hcov := (sat_parts w A h).1
  rw [coverOK, List.all_eq_true] at hcov
  have := hcov d (List.mem_range.mpr hd)
  simpa [hc] using this

theorem sat_assigned_row (w : WB) (A : Sol) (p : Nat)
    (h : build_model_sat w A = true) (hp : p < w.num_watchstanders)
    (ha : is_assigned w p = true) : shiftRowSum w A p = 0 := by
  have hb := (sat_parts w A h).2.1
  rw [boundsOK, List.all_eq_true] at hb
  have := hb p (List.mem_range.mpr hp)
  simpa [ha] using this

theorem sat_open_bounds (w : WB) (A : Sol) (p : Nat)
    (h : build_model_sat w A = true) (hp : p < w.num_watchstanders)
    (ha : is_assigned w p = false) :
    w.min_days ≤ shiftRowSum w A p ∧ shiftRowSum w A p ≤ w.max_days := by
  have hb := (sat_parts w A h).2.1
  rw [boundsOK, List.all_eq_true] at hb
  have := hb p (List.mem_range.mpr hp)
  simpa [ha] using this

theorem sat_spacing (w : WB) (A : Sol) (p d : Nat)
    (h : build_model_sat w A = true) (hp : p < w.num_watchstanders)
    (hd : d < w.num_days - w.days_off_between_duty) : windowSum w A p d ≤ 1 := by
  have hs := (sat_parts w A h).2.2.1
  rw [spacingOK, List.all_eq_true] at hs
  have := hs p (List.mem_range.mpr hp)
  rw [List.all_eq_true] at this
  have := this d (List.mem_range.mpr hd)
  simpa using this

theorem sat_conflict (w : WB) (A : Sol) (p d : Nat)
    (h : build_model_sat w A = true) (hp : p < w.num_watchstanders)
    (hd : d < w.num_days) (hc : w.schedule_conflicts p d = true) : A p d = false := by
  have ha := (sat_parts w A h).2.2.2
  rw [availOK, List.all_eq_true] at ha
  have := ha p (List.mem_range.mpr hp)
  rw [List.all_eq_true] at this
  have := this d (List.mem_range.mpr hd)
  simpa [hc] using this

theorem sat_locked (w : WB) (A : Sol) (p d : Nat)
    (h : build_model_sat w A = true) (hp : p < w.num_watchstanders)
    (hd : d < w.num_days) (hc : w.schedule_conflicts p d = false)
    (hl : w.locked_in_days p d = true) : A p d = true := by
  have ha := (sat_parts w A h).2.2.2
  rw [availOK, List.all_eq_true] at ha
  have := ha p (List.mem_range.mpr hp)
  rw [List.all_eq_true] at this
  have := this d (List.mem_range.mpr hd)
  simpa [hc, hl] using this

theorem sat_open_shift_false (w : WB) (A : Sol) (p d : Nat)
    (h : build_model_sat w A = true) (hp : p < w.num_watchstanders)
    (ha : is_assigned w p = true) (hd : d < w.num_days) : A p d = false := by
  exact (shiftRowSum_eq_zero_iff w A p).mp (sat_assigned_row w A p h hp ha) d hd

theorem sat_unclaimed_exists_open (w : WB) (A : Sol) (d : Nat)
    (h : build_model_sat w A = true) (hd : d < w.num_days)
    (hc : dayClaimed w d = false) :
    ∃ p, p < w.num_watchstanders ∧ is_assigned w p = false ∧ A p d = true := by
  have h1 := sat_cover_unclaimed w A d h hd hc
  obtain ⟨p, hp, hA⟩ := shiftColSum_exists_of_pos w A d (by omega)
  refine ⟨p, hp, ?_, hA⟩
  cases hass : is_assigned w p with
  | false => rfl
  | true =>
    have := sat_open_shift_false w A p d h hp hass hd
    rw [hA] at this
    cases this

/-! ## State bookkeeping: fields the iteration never changes, and cell-level
descriptions of `assign` and `unassign` -/

theorem staticEq_refl (w : WB) : StaticEq w w := ⟨rfl, rfl, rfl, rfl, rfl, rfl⟩

theorem staticEq_trans {a b c : WB} (h1 : StaticEq a b) (h2 : StaticEq b c) :
    StaticEq a c :=
  ⟨h2.nd.trans h1.nd, h2.nw.trans h1.nw, h2.sp.trans h1.sp, h2.dc.trans h1.dc,
    h2.cf.trans h1.cf, h2.lk.trans h1.lk⟩

theorem finalEq_refl (w : WB) : FinalEq w w := fun _ _ => rfl

theorem finalEq_trans {a b c : WB} (h1 : FinalEq a b) (h2 : FinalEq b c) :
    FinalEq a c := fun q d => (h2 q d).trans (h1 q d)

theorem staticEq_assign (w : WB) (A : Sol) (p : Nat) : StaticEq w (assign w A p) :=
  ⟨rfl, rfl, rfl, rfl, rfl, rfl⟩

theorem staticEq_unassign (w : WB) (p : Nat) : StaticEq w (unassign w p) :=
  ⟨rfl, rfl, rfl, rfl, rfl, rfl⟩

theorem staticEq_relax (w : WB) : StaticEq w (relax w) :=
  ⟨rfl, rfl, rfl, rfl, rfl, rfl⟩

theorem finalEq_relax (w : WB) : FinalEq w (relax w) := fun _ _ => rfl

theorem assign_final (w : WB) (A : Sol) (p q d : Nat) :
    (assign w A p).final_schedule q d =
      (w.final_schedule q d || (decide (q = p) && decide (d < w.num_days) && A p d)) := rfl

theorem unassign_final (w : WB) (p q d : Nat) :
    (unassign w p).final_schedule q d =
      if q = p ∧ d < w.num_days then false else w.final_schedule q d := rfl

theorem is_assigned_congr (w w' : WB) (p : Nat) (h : FinalEq w w')
    (hnd : w'.num_days = w.num_days) : is_assigned w' p = is_assigned w p := by
  unfold is_assigned
  rw [hnd]
  congr 1
  funext d
  exact h p d

theorem dayClaimed_congr (w w' : WB) (d : Nat) (h : FinalEq w w')
    (hnw : w'.num_watchstanders = w.num_watchstanders) :
    dayClaimed w' d = dayClaimed w d := by
  unfold dayClaimed
  rw [hnw]
  congr 1
  funext p
  exact h p d

theorem open_idx_congr (w w' : WB) (h : FinalEq w w')
    (hnd : w'.num_days = w.num_days)
    (hnw : w'.num_watchstanders = w.num_watchstanders) :
    open_idx w' = open_idx w := by
  unfold open_idx
  rw [hnw]
  congr 1
  funext p
  rw [is_assigned_congr w w' p h hnd]

/-! ## Behaviour of `solve_model`: a successful solve returns the input final
schedule with possibly relaxed duty bounds and a model-satisfying assignment -/

theorem solve_model_go_ok (oracle : WB → Option Sol) (hs : SoundOracle oracle) :
    ∀ (fuel : Nat) (w w' : WB) (A : Sol),
      solve_model_go oracle fuel w = .ok (w', A) →
      StaticEq w w' ∧ FinalEq w w' ∧ build_model_sat w' A = true ∧
        ∃ k, k ≤ w.min_days ∧ w'.min_days = w.min_days - k ∧
          w'.max_days = w.max_days + k := by
  intro fuel
  induction fuel with
  | zero =>
    intro w w' A h
    rw [solve_model_go] at h
    cases ho : oracle w with
    | some A0 =>
      rw [ho] at h
      cases h
      exact ⟨staticEq_refl w, finalEq_refl w, hs w A ho, 0, by omega, by omega, by omega⟩
    | none =>
      rw [ho] at h
      cases hdl : deadlockDay w with
      | some d => rw [hdl] at h; cases h
      | none =>
        rw [hdl] at h
        cases h
  | succ f ih =>
    intro w w' A h
    rw [solve_model_go] at h
    cases ho : oracle w with
    | some A0 =>
      rw [ho] at h
      cases h
      exact ⟨staticEq_refl w, finalEq_refl w, hs w A ho, 0, by omega, by omega, by omega⟩
    | none =>
      rw [ho] at h
      cases hdl : deadlockDay w with
      | some d => rw [hdl] at h; cases h
      | none =>
        rw [hdl] at h
        by_cases hpos : 0 < w.min_days
        · rw [if_pos hpos] at h
          obtain ⟨hst, hfe, hsat, k, hk, hmin, hmax⟩ := ih (relax w) w' A h
          have h1 : (relax w).min_days = w.min_days - 1 := rfl
          have h2 : (relax w).max_days = w.max_days + 1 := rfl
          rw [h1] at hmin hk
          rw [h2] at hmax
          exact ⟨staticEq_trans (staticEq_relax w) hst,
            finalEq_trans (finalEq_relax w) hfe, hsat, k + 1, by omega, by omega, by omega⟩
        · rw [if_neg hpos] at h
          cases h

theorem solve_model_ok (oracle : WB → Option Sol) (hs : SoundOracle oracle)
    (w w' : WB) (A : Sol) (h : solve_model oracle w = .ok (w', A)) :
    StaticEq w w' ∧ FinalEq w w' ∧ build_model_sat w' A = true ∧
      ∃ k, k ≤ w.min_days ∧ w'.min_days = w.min_days - k ∧
        w'.max_days = w.max_days + k :=
  solve_model_go_ok oracle hs w.min_days w w' A h

theorem find_assignments_ok (oracle : WB → Option Sol) (hs : SoundOracle oracle)
    (w : WB) (fa : FA) (h : find_assignments oracle w = .ok fa) :
    StaticEq w fa.wb ∧ FinalEq w fa.wb ∧ build_model_sat fa.wb fa.sol = true ∧
      fa.good = goodOf fa.wb fa.sol ∧ fa.bad = badOf fa.wb fa.sol ∧
      ∃ k, k ≤ w.min_days ∧ fa.wb.min_days = w.min_days - k ∧
        fa.wb.max_days = w.max_days + k := by
  rw [find_assignments] at h
  cases hsm : solve_model oracle w with
  | error e => rw [hsm] at h; cases h
  | ok p =>
    rw [hsm] at h
    cases h
    obtain ⟨hst, hfe, hsat, hk⟩ := solve_model_ok oracle hs w p.1 p.2 hsm
    exact ⟨hst, hfe, hsat, rfl, rfl, hk⟩

/-! ## Mid-round states: every state reached inside one round of
`iterate_assignment` agrees with the round's base state except that some
watchstanders who were open at round start carry the solver row -/

theorem mid_refl (b : WB) (A : Sol) : Mid b A b :=
  ⟨staticEq_refl b, fun _ => Or.inl fun _ => rfl⟩

theorem mid_mono {b : WB} {A : Sol} {w : WB} (h : Mid b A w) (q d : Nat)
    (hT : b.final_schedule q d = true) : w.final_schedule q d = true := by
  rcases h.2 q with hb | ⟨_, hc⟩
  · rw [hb d, hT]
  · rw [hc d, hT]
    simp

theorem open_row_false {b : WB} {p : Nat} (ho : is_assigned b p = false)
    {d : Nat} (hd : d < b.num_days) : b.final_schedule p d = false :=
  (is_assigned_eq_false_iff b p).mp ho d hd

theorem mid_is_assigned_of_baseRow {b w : WB} (hst : StaticEq b w) {p : Nat}
    (hb : BaseRow b w p) : is_assigned w p = is_assigned b p := by
  unfold is_assigned
  rw [hst.nd]
  congr 1
  funext d
  exact hb d

theorem mid_closed_preserved {b : WB} {A : Sol} {w : WB} (h : Mid b A w)
    {p : Nat} (hcl : is_assigned b p = true) : is_assigned w p = true := by
  obtain ⟨d, hd, hT⟩ := (is_assigned_eq_true_iff b p).mp hcl
  exact (is_assigned_eq_true_iff w p).mpr
    ⟨d, h.1.nd ▸ hd, mid_mono h p d hT⟩

theorem mid_open_rev {b : WB} {A : Sol} {w : WB} (h : Mid b A w) {p : Nat}
    (ho : is_assigned w p = false) : is_assigned b p = false := by
  cases hb : is_assigned b p with
  | false => rfl
  | true => rw [mid_closed_preserved h hb] at ho; cases ho

theorem mid_assign {b : WB} {A : Sol} {w : WB} (h : Mid b A w) (p : Nat)
    (hopen : is_assigned b p = false) : Mid b A (assign w A p) := by
  refine ⟨staticEq_trans h.1 (staticEq_assign w A p), fun q => ?_⟩
  by_cases hq : q = p
  · subst hq
    refine Or.inr ⟨hopen, fun d => ?_⟩
    rw [assign_final]
    have hnd : w.num_days = b.num_days := h.1.nd
    rcases h.2 q with hb | ⟨_, hc⟩
    · rw [hb d, hnd]
      simp
    · rw [hc d, hnd]
      cases b.final_schedule q d <;> cases A q d <;> simp
  · rcases h.2 q with hb | ⟨ho, hc⟩
    · exact Or.inl fun d => by rw [assign_final]; simp [hq]; exact hb d
    · exact Or.inr ⟨ho, fun d => by rw [assign_final]; simp [hq]; exact hc d⟩

theorem mid_unassign {b : WB} {A : Sol} {w : WB} (h : Mid b A w) (p : Nat)
    (hopen : is_assigned b p = false) : Mid b A (unassign w p) := by
  refine ⟨staticEq_trans h.1 (staticEq_unassign w p), fun q => ?_⟩
  by_cases hq : q = p
  · subst hq
    refine Or.inl fun d => ?_
    rw [unassign_final]
    by_cases hd : d < w.num_days
    · rw [if_pos ⟨rfl, hd⟩]
      exact (open_row_false hopen (h.1.nd ▸ hd)).symm
    · rw [if_neg (by tauto)]
      rcases h.2 q with hb | ⟨_, hc⟩
      · exact hb d
      · rw [hc d]
        have : ¬ d < b.num_days := by rw [← h.1.nd]; exact hd
        simp [this]
  · rcases h.2 q with hb | ⟨ho, hc⟩
    · exact Or.inl fun d => by rw [unassign_final]; simp [hq]; exact hb d
    · exact Or.inr ⟨ho, fun d => by rw [unassign_final]; simp [hq]; exact hc d⟩

theorem mid_of_finalEq {b : WB} {A : Sol} {w w' : WB} (h : Mid b A w)
    (hfe : FinalEq w w') (hst : StaticEq w w') : Mid b A w' := by
  refine ⟨staticEq_trans h.1 hst, fun q => ?_⟩
  rcases h.2 q with hb | ⟨ho, hc⟩
  · exact Or.inl fun d => (hfe q d).trans (hb d)
  · exact Or.inr ⟨ho, fun d => (hfe q d).trans (hc d)⟩

/-! ## Open-people counting -/

theorem mem_open_idx_iff (w : WB) (p : Nat) :
    p ∈ open_idx w ↔ p < w.num_watchstanders ∧ is_assigned w p = false := by
  simp [open_idx, List.mem_filter, List.mem_range]

theorem countP_lt_countP_of_flip {α : Type} (p q : α → Bool) (a : α)
    (hqa : q a = true) (hpa : p a = false) :
    ∀ l : List α, (∀ x ∈ l, p x = true → q x = true) → a ∈ l →
      l.countP p < l.countP q := by
  intro l
  induction l with
  | nil => intro _ ha; cases ha
  | cons b t ih =>
    intro hpq ha
    rw [List.countP_cons, List.countP_cons]
    rcases List.mem_cons.mp ha with rfl | hat
    · have h1 : t.countP p ≤ t.countP q :=
        List.countP_mono_left fun x hx => hpq x (List.mem_cons_of_mem _ hx)
      simp [hpa, hqa]
      omega
    · have h2 := ih (fun x hx => hpq x (List.mem_cons_of_mem _ hx)) hat
      have h3 : (if p b = true then 1 else 0) ≤ (if q b = true then 1 else 0) := by
        by_cases hb : p b = true
        · simp [hb, hpq b (List.mem_cons_self b t) hb]
        · simp [hb]
      omega

theorem openCount_le_of_mid {b : WB} {A : Sol} {w : WB} (h : Mid b A w) :
    openCount w ≤ openCount b := by
  unfold openCount open_idx
  rw [h.1.nw, ← List.countP_eq_length_filter, ← List.countP_eq_length_filter]
  apply List.countP_mono_left
  intro x _ hx
  simp only [Bool.not_eq_true'] at hx ⊢
  exact mid_open_rev h hx

theorem openCount_lt_of_mid {b : WB} {A : Sol} {w : WB} (h : Mid b A w)
    (i : Nat) (hiw : i < b.num_watchstanders)
    (hopen : is_assigned b i = false) (hclosed : is_assigned w i = true) :
    openCount w < openCount b := by
  unfold openCount open_idx
  rw [h.1.nw, ← List.countP_eq_length_filter, ← List.countP_eq_length_filter]
  apply countP_lt_countP_of_flip _ _ i
  · simp [hopen]
  · simp [hclosed]
  · intro x _ hx
    simp only [Bool.not_eq_true'] at hx ⊢
    exact mid_open_rev h hx
  · exact List.mem_range.mpr hiw

theorem openCount_pos (w : WB) (p : Nat) (hp : p < w.num_watchstanders)
    (ho : is_assigned w p = false) : 0 < openCount w := by
  have : p ∈ open_idx w := (mem_open_idx_iff w p).mpr ⟨hp, ho⟩
  have := List.length_pos.mpr (List.ne_nil_of_mem this)
  simpa [openCount] using this

/-! ## The four schedule invariants and their preservation across one round -/

theorem mid_colInv {b : WB} {A : Sol} {w : WB} (hmid : Mid b A w)
    (hsat : build_model_sat b A = true) (hinv : ColInv b) : ColInv w := by
  intro d hd
  have hdb : d < b.num_days := hmid.1.nd ▸ hd
  have hcol : colSum w d ≤ colSum b d + shiftColSum b A d := by
    unfold colSum shiftColSum
    rw [hmid.1.nw]
    have hle : ((List.range b.num_watchstanders).map
          fun p => boolNat (w.final_schedule p d)).sum ≤
        ((List.range b.num_watchstanders).map
          fun p => boolNat (b.final_schedule p d) + boolNat (A p d)).sum := by
      apply List.sum_le_sum
      intro p _
      rcases hmid.2 p with hb | ⟨_, hc⟩
      · rw [hb d]
        exact Nat.le_add_right _ _
      · rw [hc d]
        cases b.final_schedule p d <;> cases A p d <;>
          simp [boolNat, decide_eq_true hdb]
    calc ((List.range b.num_watchstanders).map
          fun p => boolNat (w.final_schedule p d)).sum
        ≤ ((List.range b.num_watchstanders).map
            fun p => boolNat (b.final_schedule p d) + boolNat (A p d)).sum := hle
      _ = _ := sum_map_add_nat _ _ _
  by_cases hcl : dayClaimed b d = true
  · have h0 := sat_cover_claimed b A d hsat hdb hcl
    have h1 := hinv d hdb
    omega
  · have hcf : dayClaimed b d = false := Bool.eq_false_iff.mpr hcl
    have h0 := sat_cover_unclaimed b A d hsat hdb hcf
    have h1 : colSum b d = 0 := (colSum_eq_zero_iff b d).mpr hcf
    omega

theorem mid_conflictInv {b : WB} {A : Sol} {w : WB} (hmid : Mid b A w)
    (hsat : build_model_sat b A = true) (hinv : ConflictInv b) : ConflictInv w := by
  intro p d hp hd hc
  have hpb : p < b.num_watchstanders := hmid.1.nw ▸ hp
  have hdb : d < b.num_days := hmid.1.nd ▸ hd
  have hcb : b.schedule_conflicts p d = true := by rw [← hmid.1.cf]; exact hc
  rcases hmid.2 p with hb | ⟨_, hcr⟩
  · rw [hb d]
    exact hinv p d hpb hdb hcb
  · rw [hcr d, hinv p d hpb hdb hcb, sat_conflict b A p d hsat hpb hdb hcb]
    simp

theorem mid_lockInv {b : WB} {A : Sol} {w : WB} (hmid : Mid b A w)
    (hsat : build_model_sat b A = true) (hmx : MutexFree b) (hinv : LockInv b) :
    LockInv w := by
  intro p d hp hd hl
  have hpb : p < b.num_watchstanders := hmid.1.nw ▸ hp
  have hdb : d < b.num_days := hmid.1.nd ▸ hd
  have hlb : b.locked_in_days p d = true := by rw [← hmid.1.lk]; exact hl
  have hcb : b.schedule_conflicts p d = false := by
    cases hcc : b.schedule_conflicts p d with
    | false => rfl
    | true => exact absurd ⟨hcc, hlb⟩ (hmx p d)
  rcases hmid.2 p with hb | ⟨ho, hcr⟩
  · rcases hinv p d hpb hdb hlb with hopen | hT
    · exact Or.inl (by rw [mid_is_assigned_of_baseRow hmid.1 hb]; exact hopen)
    · exact Or.inr (by rw [hb d]; exact hT)
  · refine Or.inr ?_
    rw [hcr d, sat_locked b A p d hsat hpb hdb hcb hlb]
    simp [decide_eq_true hdb]

theorem mid_spacingInv {b : WB} {A : Sol} {w : WB} (hmid : Mid b A w)
    (hsat : build_model_sat b A = true) (hinv : SpacingInv b) : SpacingInv w := by
  intro p d hp hd
  have hpb : p < b.num_watchstanders := hmid.1.nw ▸ hp
  have hdb : d < b.num_days - b.days_off_between_duty := by
    rw [← hmid.1.nd, ← hmid.1.sp]; exact hd
  have hwin : ∀ j, j < w.days_off_between_duty + 1 → d + j < b.num_days := by
    intro j hj
    have hsp : w.days_off_between_duty = b.days_off_between_duty := hmid.1.sp
    omega
  rcases hmid.2 p with hb | ⟨ho, hcr⟩
  · have : finalWindowSum w p d = finalWindowSum b p d := by
      unfold finalWindowSum
      rw [hmid.1.sp]
      congr 1
      apply List.map_congr_left
      intro j hj
      rw [hb (d + j)]
    rw [this]
    exact hinv p d hpb hdb
  · have : finalWindowSum w p d = windowSum b A p d := by
      unfold finalWindowSum windowSum
      rw [hmid.1.sp]
      apply congrArg
      apply List.map_congr_left
      intro j hj
      have hjlt : d + j < b.num_days := by
        apply hwin
        rw [hmid.1.sp]
        exact List.mem_range.mp hj
      rw [hcr (d + j), open_row_false ho hjlt]
      simp [decide_eq_true hjlt]
    rw [this]
    exact sat_spacing b A p d hsat hpb hdb

/-! ## Properties of the good/bad extremal partition -/

theorem mem_goodOf_iff (w : WB) (A : Sol) (p : Nat) :
    p ∈ goodOf w A ↔ p ∈ open_idx w ∧
      (badness_list w A).min? = some (badnessOf w A p) := by
  simp [goodOf, List.mem_filter]

theorem mem_badOf_iff (w : WB) (A : Sol) (p : Nat) :
    p ∈ badOf w A ↔ p ∈ open_idx w ∧
      (badness_list w A).max? = some (badnessOf w A p) := by
  simp [badOf, List.mem_filter]

theorem badness_list_ne_nil (w : WB) (A : Sol) (h : open_idx w ≠ []) :
    badness_list w A ≠ [] := by
  simp [badness_list]
  exact h

theorem exists_mem_goodOf (w : WB) (A : Sol) (h : open_idx w ≠ []) :
    ∃ p, p ∈ goodOf w A := by
  have hbl := badness_list_ne_nil w A h
  cases hmin : (badness_list w A).min? with
  | none => exact absurd (List.min?_eq_none_iff.mp hmin) hbl
  | some m =>
    have hmem : m ∈ badness_list w A := ((List.min?_eq_some_iff').mp hmin).1
    obtain ⟨p, hp, hpm⟩ := List.mem_map.mp hmem
    exact ⟨p, (mem_goodOf_iff w A p).mpr ⟨hp, by rw [hmin, hpm]⟩⟩

theorem exists_mem_badOf (w : WB) (A : Sol) (h : open_idx w ≠ []) :
    ∃ p, p ∈ badOf w A := by
  have hbl := badness_list_ne_nil w A h
  cases hmax : (badness_list w A).max? with
  | none => exact absurd (List.max?_eq_none_iff.mp hmax) hbl
  | some m =>
    have hmem : m ∈ badness_list w A := ((List.max?_eq_some_iff').mp hmax).1
    obtain ⟨p, hp, hpm⟩ := List.mem_map.mp hmem
    exact ⟨p, (mem_badOf_iff w A p).mpr ⟨hp, by rw [hmax, hpm]⟩⟩

theorem goodOf_ne_nil (w : WB) (A : Sol) (h : open_idx w ≠ []) :
    goodOf w A ≠ [] := by
  obtain ⟨p, hp⟩ := exists_mem_goodOf w A h
  exact List.ne_nil_of_mem hp

theorem badOf_ne_nil (w : WB) (A : Sol) (h : open_idx w ≠ []) :
    badOf w A ≠ [] := by
  obtain ⟨p, hp⟩ := exists_mem_badOf w A h
  exact List.ne_nil_of_mem hp

theorem open_idx_ne_nil_of_good (w : WB) (A : Sol) (h : goodOf w A ≠ []) :
    open_idx w ≠ [] := by
  intro hemp
  apply h
  rw [goodOf, hemp]
  rfl

theorem badness_le_of_badOf (w : WB) (A : Sol) {i q : Nat}
    (hi : i ∈ badOf w A) (hq : q ∈ open_idx w) :
    badnessOf w A q ≤ badnessOf w A i := by
  obtain ⟨hio, hmax⟩ := (mem_badOf_iff w A i).mp hi
  have := ((List.max?_eq_some_iff').mp hmax).2
  exact this _ (List.mem_map.mpr ⟨q, hq, rfl⟩)

theorem goodOf_eq_badOf_iff_minmax (w : WB) (A : Sol)
    (h : goodOf w A = badOf w A) (hne : open_idx w ≠ []) :
    goodOf w A = open_idx w := by
  obtain ⟨g, hg⟩ := exists_mem_goodOf w A hne
  have hgb : g ∈ badOf w A := h ▸ hg
  obtain ⟨hgo, hmin⟩ := (mem_goodOf_iff w A g).mp hg
  obtain ⟨_, hmax⟩ := (mem_badOf_iff w A g).mp hgb
  have hminfacts := (List.min?_eq_some_iff').mp hmin
  have hmaxfacts := (List.max?_eq_some_iff').mp hmax
  rw [goodOf, List.filter_eq_self]
  intro q hq
  have hle := hminfacts.2 _ (List.mem_map.mpr ⟨q, hq, rfl⟩)
  have hge := hmaxfacts.2 _ (List.mem_map.mpr ⟨q, hq, rfl⟩)
  have heq : badnessOf w A q = badnessOf w A g := by omega
  simp [hmin, heq]

theorem goodOf_disjoint_badOf (w : WB) (A : Sol)
    (h : goodOf w A ≠ badOf w A) : ∀ i ∈ goodOf w A, i ∉ badOf w A := by
  intro i hig hib
  apply h
  obtain ⟨_, hmin⟩ := (mem_goodOf_iff w A i).mp hig
  obtain ⟨_, hmax⟩ := (mem_badOf_iff w A i).mp hib
  unfold goodOf badOf
  rw [hmin, hmax]

/-! ## The speculative trial loop: it restores the schedule it started from
and always selects a candidate from a nonempty subset -/

theorem trial_finalEq (w : WB) (A : Sol) (i : Nat) (fawb : WB)
    (hfe1 : FinalEq (assign w A i) fawb) (hst1 : StaticEq (assign w A i) fawb)
    (hopen : is_assigned w i = false) : FinalEq w (unassign fawb i) := by
  have hnd : fawb.num_days = w.num_days := hst1.nd
  intro q d
  rw [unassign_final]
  by_cases hq : q = i
  · subst hq
    by_cases hd : d < fawb.num_days
    · rw [if_pos ⟨rfl, hd⟩]
      exact ((is_assigned_eq_false_iff w q).mp hopen d (by omega)).symm
    · rw [if_neg (by tauto)]
      rw [hfe1 q d, assign_final]
      have hdw : ¬ d < w.num_days := by omega
      simp [hdw]
  · rw [if_neg (by tauto)]
    rw [hfe1 q d, assign_final]
    simp [hq]

theorem spec_loop_ok (oracle : WB → Option Sol) (hs : SoundOracle oracle)
    (rng : Nat → Bool) (A : Sol) :
    ∀ (subset : List Nat) (w : WB) (mv : Option ℚ) (sel : Option Nat) (k : Nat)
      (w' : WB) (sel' : Option Nat) (k' : Nat),
      spec_loop oracle rng A subset w mv sel k = .ok (w', sel', k') →
      (∀ i ∈ subset, is_assigned w i = false) →
      StaticEq w w' ∧ FinalEq w w' ∧
        (sel' = sel ∨ ∃ i ∈ subset, sel' = some i) := by
  intro subset
  induction subset with
  | nil =>
    intro w mv sel k w' sel' k' h _
    rw [spec_loop] at h
    cases h
    exact ⟨staticEq_refl w, finalEq_refl w, Or.inl rfl⟩
  | cons i rest ih =>
    intro w mv sel k w' sel' k' h hopen
    rw [spec_loop] at h
    cases hfa : find_assignments oracle (assign w A i) with
    | error e => rw [hfa] at h; cases h
    | ok fa =>
      rw [hfa] at h
      obtain ⟨hst1, hfe1, _, _, _, _⟩ :=
        find_assignments_ok oracle hs (assign w A i) fa hfa
      have hfe2 : FinalEq w (unassign fa.wb i) :=
        trial_finalEq w A i fa.wb hfe1 hst1 (hopen i (List.mem_cons_self i rest))
      have hst2 : StaticEq w (unassign fa.wb i) :=
        staticEq_trans (staticEq_assign w A i)
          (staticEq_trans hst1 (staticEq_unassign fa.wb i))
      have hopen2 : ∀ j ∈ rest, is_assigned (unassign fa.wb i) j = false := by
        intro j hj
        rw [is_assigned_congr w (unassign fa.wb i) j hfe2 hst2.nd]
        exact hopen j (List.mem_cons_of_mem i hj)
      have lift : ∀ (s0 : Option Nat),
          (sel' = s0 ∨ ∃ j ∈ rest, sel' = some j) →
          (s0 = some i ∨ s0 = sel) →
          (sel' = sel ∨ ∃ j ∈ i :: rest, sel' = some j) := by
        intro s0 hc hs0
        rcases hc with hc | ⟨j, hj, hjs⟩
        · rcases hs0 with rfl | rfl
          · exact Or.inr ⟨i, List.mem_cons_self i rest, hc⟩
          · exact Or.inl hc
        · exact Or.inr ⟨j, List.mem_cons_of_mem i hj, hjs⟩
      cases mv with
      | none =>
        simp only at h
        obtain ⟨ha, hb, hc⟩ := ih _ _ _ _ _ _ _ h hopen2
        exact ⟨staticEq_trans hst2 ha, finalEq_trans hfe2 hb,
          lift _ hc (Or.inl rfl)⟩
      | some m =>
        simp only at h
        by_cases h1 : fa.var < m
        · rw [if_pos h1] at h
          obtain ⟨ha, hb, hc⟩ := ih _ _ _ _ _ _ _ h hopen2
          exact ⟨staticEq_trans hst2 ha, finalEq_trans hfe2 hb,
            lift _ hc (Or.inl rfl)⟩
        · rw [if_neg h1] at h
          by_cases h2 : fa.var = m
          · rw [if_pos h2] at h
            obtain ⟨ha, hb, hc⟩ := ih _ _ _ _ _ _ _ h hopen2
            refine ⟨staticEq_trans hst2 ha, finalEq_trans hfe2 hb, ?_⟩
            cases hrng : rng k with
            | true => rw [hrng] at hc; exact lift _ hc (Or.inl rfl)
            | false => rw [hrng] at hc; exact lift _ hc (Or.inr rfl)
          · rw [if_neg h2] at h
            obtain ⟨ha, hb, hc⟩ := ih _ _ _ _ _ _ _ h hopen2
            exact ⟨staticEq_trans hst2 ha, finalEq_trans hfe2 hb,
              lift _ hc (Or.inr rfl)⟩

theorem spec_loop_sel_isSome (oracle : WB → Option Sol) (rng : Nat → Bool)
    (A : Sol) :
    ∀ (subset : List Nat) (w : WB) (m : ℚ) (j : Nat) (k : Nat)
      (w' : WB) (sel' : Option Nat) (k' : Nat),
      spec_loop oracle rng A subset w (some m) (some j) k = .ok (w', sel', k') →
      ∃ i, sel' = some i ∧ (i = j ∨ i ∈ subset) := by
  intro subset
  induction subset with
  | nil =>
    intro w m j k w' sel' k' h
    rw [spec_loop] at h
    cases h
    exact ⟨j, rfl, Or.inl rfl⟩
  | cons i rest ih =>
    intro w m j k w' sel' k' h
    rw [spec_loop] at h
    cases hfa : find_assignments oracle (assign w A i) with
    | error e => rw [hfa] at h; cases h
    | ok fa =>
      rw [hfa] at h
      simp only at h
      have lift : ∀ (x : Nat), (x = i ∨ x ∈ rest) → x ∈ i :: rest := by
        intro x hx
        rcases hx with rfl | hx
        · exact List.mem_cons_self x rest
        · exact List.mem_cons_of_mem i hx
      by_cases h1 : fa.var < m
      · rw [if_pos h1] at h
        obtain ⟨x, hx, hxc⟩ := ih _ _ _ _ _ _ _ h
        exact ⟨x, hx, Or.inr (lift x hxc)⟩
      · rw [if_neg h1] at h
        by_cases h2 : fa.var = m
        · rw [if_pos h2] at h
          cases hrng : rng k with
          | true =>
            rw [hrng] at h
            obtain ⟨x, hx, hxc⟩ := ih _ _ _ _ _ _ _ h
            exact ⟨x, hx, Or.inr (lift x hxc)⟩
          | false =>
            rw [hrng] at h
            obtain ⟨x, hx, hxc⟩ := ih _ _ _ _ _ _ _ h
            rcases hxc with rfl | hxm
            · exact ⟨x, hx, Or.inl rfl⟩
            · exact ⟨x, hx, Or.inr (List.mem_cons_of_mem i hxm)⟩
        · rw [if_neg h2] at h
          obtain ⟨x, hx, hxc⟩ := ih _ _ _ _ _ _ _ h
          rcases hxc with rfl | hxm
          · exact ⟨x, hx, Or.inl rfl⟩
          · exact ⟨x, hx, Or.inr (List.mem_cons_of_mem i hxm)⟩

theorem spec_loop_some_of_start_none (oracle : WB → Option Sol)
    (rng : Nat → Bool) (A : Sol) (i : Nat) (rest : List Nat) (w : WB) (k : Nat)
    (w' : WB) (sel' : Option Nat) (k' : Nat)
    (h : spec_loop oracle rng A (i :: rest) w none none k = .ok (w', sel', k')) :
    ∃ x ∈ i :: rest, sel' = some x := by
  rw [spec_loop] at h
  cases hfa : find_assignments oracle (assign w A i) with
  | error e => rw [hfa] at h; cases h
  | ok fa =>
    rw [hfa] at h
    simp only at h
    obtain ⟨x, hx, hxc⟩ := spec_loop_sel_isSome oracle rng A _ _ _ _ _ _ _ _ h
    rcases hxc with rfl | hxm
    · exact ⟨x, List.mem_cons_self x rest, hx⟩
    · exact ⟨x, List.mem_cons_of_mem i hxm, hx⟩

/-! ## Resolution of one extremal subset: it commits exactly one member of a
nonempty subset from the round's solver assignment -/

theorem process_subset_ok (oracle : WB → Option Sol) (hs : SoundOracle oracle)
    (rng : Nat → Bool) (A : Sol) (w : WB) (subset : List Nat) (k : Nat)
    (w2 : WB) (k2 : Nat)
    (h : process_subset oracle rng A w subset k = .ok (w2, k2))
    (hne : subset ≠ [])
    (hopen : ∀ i ∈ subset, is_assigned w i = false) :
    StaticEq w w2 ∧ ∃ i ∈ subset, ∀ q d, w2.final_schedule q d =
      (w.final_schedule q d ||
        (decide (q = i) && decide (d < w.num_days) && A i d)) := by
  cases subset with
  | nil => exact absurd rfl hne
  | cons i rest =>
    cases rest with
    | nil =>
      simp only [process_subset] at h
      rw [Except.ok.injEq, Prod.mk.injEq] at h
      obtain ⟨hw, _⟩ := h
      subst hw
      exact ⟨staticEq_assign w A i, i, List.mem_cons_self i [],
        fun q d => assign_final w A i q d⟩
    | cons j rest2 =>
      simp only [process_subset] at h
      cases hsl : spec_loop oracle rng A (i :: j :: rest2) w none none k with
      | error e => rw [hsl] at h; cases h
      | ok r =>
        obtain ⟨w1, sel1, k1⟩ := r
        rw [hsl] at h
        obtain ⟨x, hxmem, hxsel⟩ :=
          spec_loop_some_of_start_none oracle rng A i (j :: rest2) w k w1 sel1 k1 hsl
        obtain ⟨hst1, hfe1, _⟩ :=
          spec_loop_ok oracle hs rng A (i :: j :: rest2) w none none k w1 sel1 k1
            hsl hopen
        subst hxsel
        simp only at h
        rw [Except.ok.injEq, Prod.mk.injEq] at h
        obtain ⟨hw, _⟩ := h
        subst hw
        refine ⟨staticEq_trans hst1 (staticEq_assign w1 A x), x, hxmem,
          fun q d => ?_⟩
        rw [assign_final, hfe1 q d, hst1.nd]

/-! ## Committing rows keeps the mid-round relation -/

theorem assign_preserves_committedRow {b : WB} {A : Sol} {w : WB} {p : Nat}
    (h : CommittedRow b A w p) (hst : StaticEq b w) (j : Nat) :
    CommittedRow b A (assign w A j) p := by
  intro d
  rw [assign_final, h d]
  have hnd : w.num_days = b.num_days := hst.nd
  by_cases hj : p = j
  · subst hj
    rw [hnd]
    cases b.final_schedule p d <;> cases A p d <;> simp
  · simp [hj]

theorem mid_assign_committedRow {b : WB} {A : Sol} {w : WB} (hmid : Mid b A w)
    (p : Nat) : CommittedRow b A (assign w A p) p := by
  intro d
  rw [assign_final]
  have hnd : w.num_days = b.num_days := hmid.1.nd
  rcases hmid.2 p with hb | ⟨_, hc⟩
  · rw [hb d, hnd]
    simp
  · rw [hc d, hnd]
    cases b.final_schedule p d <;> cases A p d <;> simp

theorem foldl_assign_mid {b : WB} {A : Sol} :
    ∀ (l : List Nat) (w : WB), Mid b A w →
      (∀ i ∈ l, is_assigned b i = false) →
      Mid b A (l.foldl (fun wa i => assign wa A i) w) := by
  intro l
  induction l with
  | nil => intro w hm _; exact hm
  | cons i t ih =>
    intro w hm ho
    rw [List.foldl_cons]
    exact ih (assign w A i) (mid_assign hm i (ho i (List.mem_cons_self i t)))
      fun j hj => ho j (List.mem_cons_of_mem i hj)

theorem foldl_preserves_committedRow {b : WB} {A : Sol} {p : Nat} :
    ∀ (l : List Nat) (w : WB), CommittedRow b A w p → StaticEq b w →
      CommittedRow b A (l.foldl (fun wa i => assign wa A i) w) p := by
  intro l
  induction l with
  | nil => intro w hc _; exact hc
  | cons j t ih =>
    intro w hc hst
    rw [List.foldl_cons]
    exact ih (assign w A j) (assign_preserves_committedRow hc hst j)
      (staticEq_trans hst (staticEq_assign w A j))

theorem foldl_assign_committed {b : WB} {A : Sol} :
    ∀ (l : List Nat) (w : WB), Mid b A w →
      (∀ i ∈ l, is_assigned b i = false) →
      ∀ p ∈ l, CommittedRow b A (l.foldl (fun wa i => assign wa A i) w) p := by
  intro l
  induction l with
  | nil => intro w _ _ p hp; cases hp
  | cons i t ih =>
    intro w hm ho p hp
    rw [List.foldl_cons]
    rcases List.mem_cons.mp hp with rfl | hpt
    · exact foldl_preserves_committedRow t (assign w A p)
        (mid_assign_committedRow hm p)
        (mid_assign hm p (ho p (List.mem_cons_self p t))).1
    · exact ih (assign w A i) (mid_assign hm i (ho i (List.mem_cons_self i t)))
        (fun j hj => ho j (List.mem_cons_of_mem i hj)) p hpt

theorem mid_of_assign_form {b : WB} {A : Sol} {w w2 : WB} (hmid : Mid b A w)
    (i : Nat) (hopen : is_assigned b i = false) (hst2 : StaticEq w w2)
    (hform : ∀ q d, w2.final_schedule q d =
      (w.final_schedule q d ||
        (decide (q = i) && decide (d < w.num_days) && A i d))) :
    Mid b A w2 := by
  refine ⟨staticEq_trans hmid.1 hst2, fun q => ?_⟩
  have hnd : w.num_days = b.num_days := hmid.1.nd
  by_cases hq : q = i
  · subst hq
    refine Or.inr ⟨hopen, fun d => ?_⟩
    rw [hform q d, hnd]
    rcases hmid.2 q with hb | ⟨_, hc⟩
    · rw [hb d]
      simp
    · rw [hc d]
      cases b.final_schedule q d <;> cases A q d <;> simp
  · rcases hmid.2 q with hb | ⟨ho, hc⟩
    · exact Or.inl fun d => by rw [hform q d]; simp [hq]; exact hb d
    · exact Or.inr ⟨ho, fun d => by rw [hform q d]; simp [hq]; exact hc d⟩

theorem committedRow_of_assign_form {b : WB} {A : Sol} {w w2 : WB}
    (hmid : Mid b A w) (i : Nat)
    (hform : ∀ q d, w2.final_schedule q d =
      (w.final_schedule q d ||
        (decide (q = i) && decide (d < w.num_days) && A i d))) :
    CommittedRow b A w2 i := by
  intro d
  have hnd : w.num_days = b.num_days := hmid.1.nd
  rw [hform i d, hnd]
  rcases hmid.2 i with hb | ⟨_, hc⟩
  · rw [hb d]
    simp
  · rw [hc d]
    cases b.final_schedule i d <;> cases A i d <;> simp

/-! ## One full round of `iterate_assignment` -/

theorem iterate_assignment_ok (oracle : WB → Option Sol) (hs : SoundOracle oracle)
    (rng : Nat → Bool) (w : WB) (k : Nat) (w3 : WB) (k3 : Nat)
    (h : iterate_assignment oracle rng w k = .ok (w3, k3)) :
    ∃ b A, FinalEq w b ∧ StaticEq w b ∧ build_model_sat b A = true ∧
      Mid b A w3 ∧ RoundOutcome b A w3 := by
  rw [iterate_assignment] at h
  cases hfa : find_assignments oracle w with
  | error e => rw [hfa] at h; cases h
  | ok fa =>
    rw [hfa] at h
    simp only at h
    obtain ⟨hst, hfe, hsat, hgood, hbad, _⟩ := find_assignments_ok oracle hs w fa hfa
    by_cases hemp : (fa.good.isEmpty || fa.bad.isEmpty) = true
    · rw [if_pos hemp] at h
      rw [Except.ok.injEq, Prod.mk.injEq] at h
      obtain ⟨hw, _⟩ := h
      subst hw
      refine ⟨fa.wb, fa.sol, hfe, hst, hsat, mid_refl _ _,
        Or.inl ⟨?_, finalEq_refl _⟩⟩
      rcases (Bool.or_eq_true _ _).mp hemp with hge | hbe
      · have : fa.good = [] := List.isEmpty_iff.mp hge
        rw [hgood] at this
        by_contra hopen
        exact goodOf_ne_nil fa.wb fa.sol hopen this
      · have : fa.bad = [] := List.isEmpty_iff.mp hbe
        rw [hbad] at this
        by_contra hopen
        exact badOf_ne_nil fa.wb fa.sol hopen this
    · rw [if_neg hemp] at h
      have hgne : fa.good ≠ [] := by
        intro hg
        apply hemp
        rw [hg]
        rfl
      have hbne : fa.bad ≠ [] := by
        intro hb
        apply hemp
        rw [hb]
        simp
      have hopenNe : open_idx fa.wb ≠ [] :=
        open_idx_ne_nil_of_good fa.wb fa.sol (hgood ▸ hgne)
      by_cases htie : fa.good = fa.bad
      · rw [if_pos htie] at h
        rw [Except.ok.injEq, Prod.mk.injEq] at h
        obtain ⟨hw, _⟩ := h
        subst hw
        have htie' : goodOf fa.wb fa.sol = badOf fa.wb fa.sol := by
          rw [← hgood, ← hbad]
          exact htie
        have hgeq : goodOf fa.wb fa.sol = open_idx fa.wb :=
          goodOf_eq_badOf_iff_minmax fa.wb fa.sol htie' hopenNe
        have hall : ∀ i ∈ fa.good, is_assigned fa.wb i = false := by
          intro i hi
          rw [hgood, hgeq] at hi
          exact ((mem_open_idx_iff fa.wb i).mp hi).2
        refine ⟨fa.wb, fa.sol, hfe, hst, hsat,
          foldl_assign_mid fa.good fa.wb (mid_refl _ _) hall,
          Or.inr (Or.inl ⟨hgeq, ?_⟩)⟩
        intro p hp
        have hp' : p ∈ fa.good := by
          rw [hgood, hgeq]
          exact hp
        exact foldl_assign_committed fa.good fa.wb (mid_refl _ _) hall p hp'
      · rw [if_neg htie] at h
        cases hp1 : process_subset oracle rng fa.sol fa.wb fa.good k with
        | error e => rw [hp1] at h; cases h
        | ok r2 =>
          obtain ⟨w2, k2⟩ := r2
          rw [hp1] at h
          simp only at h
          cases hp2 : process_subset oracle rng fa.sol w2 fa.bad k2 with
          | error e => rw [hp2] at h; cases h
          | ok r3 =>
            obtain ⟨w3x, k3x⟩ := r3
            rw [hp2] at h
            rw [Except.ok.injEq, Prod.mk.injEq] at h
            obtain ⟨hw, _⟩ := h
            subst hw
            have hopenG : ∀ i ∈ fa.good, is_assigned fa.wb i = false := by
              intro i hi
              rw [hgood] at hi
              exact ((mem_open_idx_iff fa.wb i).mp
                ((mem_goodOf_iff fa.wb fa.sol i).mp hi).1).2
            obtain ⟨hstG, iG, hiG, hformG⟩ :=
              process_subset_ok oracle hs rng fa.sol fa.wb fa.good k w2 k2 hp1
                hgne hopenG
            have hiGgood : iG ∈ goodOf fa.wb fa.sol := hgood ▸ hiG
            have hiGopen : is_assigned fa.wb iG = false := hopenG iG hiG
            have hmid2 : Mid fa.wb fa.sol w2 :=
              mid_of_assign_form (mid_refl _ _) iG hiGopen hstG hformG
            have hdisj := goodOf_disjoint_badOf fa.wb fa.sol (by
              rw [← hgood, ← hbad]
              exact htie)
            have hopenB : ∀ i ∈ fa.bad, is_assigned w2 i = false := by
              intro i hi
              have hib : i ∈ badOf fa.wb fa.sol := hbad ▸ hi
              have hio : i ∈ open_idx fa.wb :=
                ((mem_badOf_iff fa.wb fa.sol i).mp hib).1
              have hne : i ≠ iG := by
                intro heq
                exact hdisj iG hiGgood (heq ▸ hib)
              have hrow : ∀ d, w2.final_schedule i d = fa.wb.final_schedule i d := by
                intro d
                rw [hformG i d]
                simp [hne]
              have : is_assigned w2 i = is_assigned fa.wb i :=
                mid_is_assigned_of_baseRow hmid2.1 hrow
              rw [this]
              exact ((mem_open_idx_iff fa.wb i).mp hio).2
            obtain ⟨hstB, iB, hiB, hformB⟩ :=
              process_subset_ok oracle hs rng fa.sol w2 fa.bad k2 w3x k3x hp2
                hbne hopenB
            have hiBbad : iB ∈ badOf fa.wb fa.sol := hbad ▸ hiB
            have hiBopen : is_assigned fa.wb iB = false :=
              ((mem_open_idx_iff fa.wb iB).mp
                ((mem_badOf_iff fa.wb fa.sol iB).mp hiBbad).1).2
            have hmid3 : Mid fa.wb fa.sol w3x :=
              mid_of_assign_form hmid2 iB hiBopen hstB hformB
            exact ⟨fa.wb, fa.sol, hfe, hst, hsat, hmid3,
              Or.inr (Or.inr ⟨iB, hiBbad,
                committedRow_of_assign_form hmid2 iB hformB⟩)⟩

/-! ## Transfer of the invariants along final-schedule-preserving state
changes (solver relaxation only touches the duty bounds) -/

theorem colSum_congr (w w' : WB) (d : Nat) (h : FinalEq w w')
    (hnw : w'.num_watchstanders = w.num_watchstanders) :
    colSum w' d = colSum w d := by
  unfold colSum
  rw [hnw]
  congr 1
  apply List.map_congr_left
  intro p _
  rw [h p d]

theorem finalWindowSum_congr (w w' : WB) (p d : Nat) (h : FinalEq w w')
    (hsp : w'.days_off_between_duty = w.days_off_between_duty) :
    finalWindowSum w' p d = finalWindowSum w p d := by
  unfold finalWindowSum
  rw [hsp]
  congr 1
  apply List.map_congr_left
  intro j _
  rw [h p (d + j)]

theorem colInv_congr (w w' : WB) (h : FinalEq w w') (hst : StaticEq w w')
    (hi : ColInv w) : ColInv w' := by
  intro d hd
  rw [colSum_congr w w' d h hst.nw]
  exact hi d (hst.nd ▸ hd)

theorem conflictInv_congr (w w' : WB) (h : FinalEq w w') (hst : StaticEq w w')
    (hi : ConflictInv w) : ConflictInv w' := by
  intro p d hp hd hc
  rw [h p d]
  exact hi p d (hst.nw ▸ hp) (hst.nd ▸ hd) (by rw [← hst.cf]; exact hc)

theorem lockInv_congr (w w' : WB) (h : FinalEq w w') (hst : StaticEq w w')
    (hi : LockInv w) : LockInv w' := by
  intro p d hp hd hl
  rcases hi p d (hst.nw ▸ hp) (hst.nd ▸ hd) (by rw [← hst.lk]; exact hl) with ho | hT
  · exact Or.inl (by rw [is_assigned_congr w w' p h hst.nd]; exact ho)
  · exact Or.inr (by rw [h p d]; exact hT)

theorem spacingInv_congr (w w' : WB) (h : FinalEq w w') (hst : StaticEq w w')
    (hi : SpacingInv w) : SpacingInv w' := by
  intro p d hp hd
  rw [finalWindowSum_congr w w' p d h hst.sp]
  exact hi p d (hst.nw ▸ hp) (by rw [hst.nd, hst.sp] at hd; exact hd)

theorem mutexFree_congr (w w' : WB) (hst : StaticEq w w') (hmx : MutexFree w) :
    MutexFree w' := by
  intro p d hc
  rw [hst.cf, hst.lk] at hc
  exact hmx p d hc

theorem costPos_congr (w w' : WB) (hst : StaticEq w w') (hcp : CostPos w) :
    CostPos w' := by
  intro d hd
  rw [hst.dc]
  exact hcp d (hst.nd ▸ hd)

theorem openCount_congr (w w' : WB) (h : FinalEq w w') (hst : StaticEq w w') :
    openCount w' = openCount w := by
  unfold openCount
  rw [open_idx_congr w w' h hst.nd hst.nw]

/-! ## Consequences of one successful round -/

theorem iterate_static (oracle : WB → Option Sol) (hs : SoundOracle oracle)
    (rng : Nat → Bool) (w : WB) (k : Nat) (w3 : WB) (k3 : Nat)
    (h : iterate_assignment oracle rng w k = .ok (w3, k3)) : StaticEq w w3 := by
  obtain ⟨b, A, _, hst, _, hmid, _⟩ := iterate_assignment_ok oracle hs rng w k w3 k3 h
  exact staticEq_trans hst hmid.1

theorem iterate_cell_mono (oracle : WB → Option Sol) (hs : SoundOracle oracle)
    (rng : Nat → Bool) (w : WB) (k : Nat) (w3 : WB) (k3 : Nat)
    (h : iterate_assignment oracle rng w k = .ok (w3, k3)) (q d : Nat)
    (hT : w.final_schedule q d = true) : w3.final_schedule q d = true := by
  obtain ⟨b, A, hfe, _, _, hmid, _⟩ := iterate_assignment_ok oracle hs rng w k w3 k3 h
  exact mid_mono hmid q d ((hfe q d).trans hT)

theorem iterate_assigned_mono (oracle : WB → Option Sol) (hs : SoundOracle oracle)
    (rng : Nat → Bool) (w : WB) (k : Nat) (w3 : WB) (k3 : Nat)
    (h : iterate_assignment oracle rng w k = .ok (w3, k3)) (q : Nat)
    (hT : is_assigned w q = true) : is_assigned w3 q = true := by
  obtain ⟨d, hd, hc⟩ := (is_assigned_eq_true_iff w q).mp hT
  have hst := iterate_static oracle hs rng w k w3 k3 h
  exact (is_assigned_eq_true_iff w3 q).mpr
    ⟨d, hst.nd ▸ hd, iterate_cell_mono oracle hs rng w k w3 k3 h q d hc⟩

theorem iterate_claimed_mono (oracle : WB → Option Sol) (hs : SoundOracle oracle)
    (rng : Nat → Bool) (w : WB) (k : Nat) (w3 : WB) (k3 : Nat)
    (h : iterate_assignment oracle rng w k = .ok (w3, k3)) (d : Nat)
    (hT : dayClaimed w d = true) : dayClaimed w3 d = true := by
  obtain ⟨p, hp, hc⟩ := (dayClaimed_eq_true_iff w d).mp hT
  have hst := iterate_static oracle hs rng w k w3 k3 h
  exact (dayClaimed_eq_true_iff w3 d).mpr
    ⟨p, hst.nw ▸ hp, iterate_cell_mono oracle hs rng w k w3 k3 h p d hc⟩

theorem iterate_allClaimed (oracle : WB → Option Sol) (hs : SoundOracle oracle)
    (rng : Nat → Bool) (w : WB) (k : Nat) (w3 : WB) (k3 : Nat)
    (h : iterate_assignment oracle rng w k = .ok (w3, k3))
    (hall : AllClaimed w) : AllClaimed w3 := by
  intro d hd
  have hst := iterate_static oracle hs rng w k w3 k3 h
  exact iterate_claimed_mono oracle hs rng w k w3 k3 h d (hall d (hst.nd ▸ hd))

theorem iterate_colInv (oracle : WB → Option Sol) (hs : SoundOracle oracle)
    (rng : Nat → Bool) (w : WB) (k : Nat) (w3 : WB) (k3 : Nat)
    (h : iterate_assignment oracle rng w k = .ok (w3, k3)) (hi : ColInv w) :
    ColInv w3 := by
  obtain ⟨b, A, hfe, hst, hsat, hmid, _⟩ :=
    iterate_assignment_ok oracle hs rng w k w3 k3 h
  exact mid_colInv hmid hsat (colInv_congr w b hfe hst hi)

theorem iterate_conflictInv (oracle : WB → Option Sol) (hs : SoundOracle oracle)
    (rng : Nat → Bool) (w : WB) (k : Nat) (w3 : WB) (k3 : Nat)
    (h : iterate_assignment oracle rng w k = .ok (w3, k3)) (hi : ConflictInv w) :
    ConflictInv w3 := by
  obtain ⟨b, A, hfe, hst, hsat, hmid, _⟩ :=
    iterate_assignment_ok oracle hs rng w k w3 k3 h
  exact mid_conflictInv hmid hsat (conflictInv_congr w b hfe hst hi)

theorem iterate_lockInv (oracle : WB → Option Sol) (hs : SoundOracle oracle)
    (rng : Nat → Bool) (w : WB) (k : Nat) (w3 : WB) (k3 : Nat)
    (h : iterate_assignment oracle rng w k = .ok (w3, k3)) (hmx : MutexFree w)
    (hi : LockInv w) : LockInv w3 := by
  obtain ⟨b, A, hfe, hst, hsat, hmid, _⟩ :=
    iterate_assignment_ok oracle hs rng w k w3 k3 h
  exact mid_lockInv hmid hsat (mutexFree_congr w b hst hmx)
    (lockInv_congr w b hfe hst hi)

theorem iterate_spacingInv (oracle : WB → Option Sol) (hs : SoundOracle oracle)
    (rng : Nat → Bool) (w : WB) (k : Nat) (w3 : WB) (k3 : Nat)
    (h : iterate_assignment oracle rng w k = .ok (w3, k3)) (hi : SpacingInv w) :
    SpacingInv w3 := by
  obtain ⟨b, A, hfe, hst, hsat, hmid, _⟩ :=
    iterate_assignment_ok oracle hs rng w k w3 k3 h
  exact mid_spacingInv hmid hsat (spacingInv_congr w b hfe hst hi)

theorem iterate_openCount_le (oracle : WB → Option Sol) (hs : SoundOracle oracle)
    (rng : Nat → Bool) (w : WB) (k : Nat) (w3 : WB) (k3 : Nat)
    (h : iterate_assignment oracle rng w k = .ok (w3, k3)) :
    openCount w3 ≤ openCount w := by
  obtain ⟨b, A, hfe, hst, hsat, hmid, _⟩ :=
    iterate_assignment_ok oracle hs rng w k w3 k3 h
  have := openCount_le_of_mid hmid
  rw [openCount_congr w b hfe hst] at this
  exact this

theorem iterate_unclaimed_open (oracle : WB → Option Sol) (hs : SoundOracle oracle)
    (rng : Nat → Bool) (w : WB) (k : Nat) (w3 : WB) (k3 : Nat)
    (h : iterate_assignment oracle rng w k = .ok (w3, k3)) :
    ∀ d, d < w3.num_days → dayClaimed w3 d = false →
      ∃ p, p < w3.num_watchstanders ∧ is_assigned w3 p = false := by
  intro d hd hun
  obtain ⟨b, A, hfe, hst, hsat, hmid, _⟩ :=
    iterate_assignment_ok oracle hs rng w k w3 k3 h
  have hdb : d < b.num_days := by rw [← hmid.1.nd]; exact hd
  have hunb : dayClaimed b d = false := by
    cases hbc : dayClaimed b d with
    | false => rfl
    | true =>
      obtain ⟨p, hp, hc⟩ := (dayClaimed_eq_true_iff b d).mp hbc
      have := (dayClaimed_eq_true_iff w3 d).mpr
        ⟨p, hmid.1.nw ▸ hp, mid_mono hmid p d hc⟩
      rw [hun] at this
      cases this
  obtain ⟨p, hp, hopen, hA⟩ := sat_unclaimed_exists_open b A d hsat hdb hunb
  rcases hmid.2 p with hb | ⟨_, hc⟩
  · exact ⟨p, hmid.1.nw ▸ hp, by
      rw [mid_is_assigned_of_baseRow hmid.1 hb]; exact hopen⟩
  · exfalso
    have : w3.final_schedule p d = true := by
      rw [hc d, hA]
      simp [decide_eq_true hdb]
    have := (dayClaimed_eq_true_iff w3 d).mpr ⟨p, hmid.1.nw ▸ hp, this⟩
    rw [hun] at this
    cases this

theorem iterate_progress (oracle : WB → Option Sol) (hs : SoundOracle oracle)
    (rng : Nat → Bool) (w : WB) (k : Nat) (w3 : WB) (k3 : Nat)
    (h : iterate_assignment oracle rng w k = .ok (w3, k3)) (hcp : CostPos w)
    (hnotall : ¬ AllClaimed w) :
    AllClaimed w3 ∨ openCount w3 < openCount w := by
  obtain ⟨b, A, hfe, hst, hsat, hmid, hout⟩ :=
    iterate_assignment_ok oracle hs rng w k w3 k3 h
  have hcpb : CostPos b := costPos_congr w b hst hcp
  rw [AllClaimed] at hnotall
  push_neg at hnotall
  obtain ⟨d0, hd0, hun0⟩ := hnotall
  have hun0' : dayClaimed w d0 = false := Bool.eq_false_iff.mpr hun0
  have hd0b : d0 < b.num_days := hst.nd ▸ hd0
  have hun0b : dayClaimed b d0 = false := by
    rw [dayClaimed_congr w b d0 hfe hst.nw]
    exact hun0'
  obtain ⟨p0, hp0, hp0open, hA0⟩ := sat_unclaimed_exists_open b A d0 hsat hd0b hun0b
  have hp0idx : p0 ∈ open_idx b := (mem_open_idx_iff b p0).mpr ⟨hp0, hp0open⟩
  have hpos0 : 0 < badnessOf b A p0 :=
    Nat.lt_of_lt_of_le (hcpb d0 hd0b) (le_badnessOf b A p0 d0 hd0b hA0)
  rcases hout with ⟨hemp, _⟩ | ⟨hgeq, hcommit⟩ | ⟨iB, hiB, hcommit⟩
  · rw [hemp] at hp0idx
    cases hp0idx
  · left
    intro d hd
    have hdb : d < b.num_days := by rw [← hmid.1.nd]; exact hd
    by_cases hcl : dayClaimed b d = true
    · obtain ⟨p, hp, hc⟩ := (dayClaimed_eq_true_iff b d).mp hcl
      exact (dayClaimed_eq_true_iff w3 d).mpr
        ⟨p, hmid.1.nw ▸ hp, mid_mono hmid p d hc⟩
    · have hcf : dayClaimed b d = false := Bool.eq_false_iff.mpr hcl
      obtain ⟨p, hp, hpopen, hA⟩ := sat_unclaimed_exists_open b A d hsat hdb hcf
      have hpidx : p ∈ open_idx b := (mem_open_idx_iff b p).mpr ⟨hp, hpopen⟩
      have : w3.final_schedule p d = true := by
        rw [hcommit p hpidx, hA]
        simp [decide_eq_true hdb]
      exact (dayClaimed_eq_true_iff w3 d).mpr ⟨p, hmid.1.nw ▸ hp, this⟩
  · right
    have hiBidx : iB ∈ open_idx b := ((mem_badOf_iff b A iB).mp hiB).1
    obtain ⟨hiBw, hiBopen⟩ := (mem_open_idx_iff b iB).mp hiBidx
    have hposB : 0 < badnessOf b A iB :=
      Nat.lt_of_lt_of_le hpos0 (badness_le_of_badOf b A hiB hp0idx)
    obtain ⟨d1, hd1, hAd1⟩ := badnessOf_pos_exists b A iB hposB
    have hcell : w3.final_schedule iB d1 = true := by
      rw [hcommit d1, hAd1]
      simp [decide_eq_true hd1]
    have hclosed : is_assigned w3 iB = true :=
      (is_assigned_eq_true_iff w3 iB).mpr ⟨d1, hmid.1.nd ▸ hd1, hcell⟩
    have := openCount_lt_of_mid hmid iB hiBw hiBopen hclosed
    rw [openCount_congr w b hfe hst] at this
    exact this

theorem iterate_locked_progress (oracle : WB → Option Sol) (hs : SoundOracle oracle)
    (rng : Nat → Bool) (w : WB) (k : Nat) (w3 : WB) (k3 : Nat)
    (h : iterate_assignment oracle rng w k = .ok (w3, k3)) (hcp : CostPos w)
    (hmx : MutexFree w) (p d : Nat) (hp : p < w.num_watchstanders)
    (hd : d < w.num_days) (hopen : is_assigned w p = false)
    (hl : w.locked_in_days p d = true) :
    is_assigned w3 p = true ∨ openCount w3 < openCount w := by
  obtain ⟨b, A, hfe, hst, hsat, hmid, hout⟩ :=
    iterate_assignment_ok oracle hs rng w k w3 k3 h
  have hcpb : CostPos b := costPos_congr w b hst hcp
  have hpb : p < b.num_watchstanders := hst.nw ▸ hp
  have hdb : d < b.num_days := hst.nd ▸ hd
  have hlb : b.locked_in_days p d = true := by rw [hst.lk]; exact hl
  have hcb : b.schedule_conflicts p d = false := by
    cases hcc : b.schedule_conflicts p d with
    | false => rfl
    | true =>
      exfalso
      apply hmx p d
      rw [hst.cf] at hcc
      rw [hst.lk] at hlb
      exact ⟨hcc, hlb⟩
  have hopenb : is_assigned b p = false := by
    rw [is_assigned_congr w b p hfe hst.nd]
    exact hopen
  have hpidx : p ∈ open_idx b := (mem_open_idx_iff b p).mpr ⟨hpb, hopenb⟩
  have hApd : A p d = true := sat_locked b A p d hsat hpb hdb hcb hlb
  have hpos : 0 < badnessOf b A p :=
    Nat.lt_of_lt_of_le (hcpb d hdb) (le_badnessOf b A p d hdb hApd)
  rcases hout with ⟨hemp, _⟩ | ⟨hgeq, hcommit⟩ | ⟨iB, hiB, hcommit⟩
  · rw [hemp] at hpidx
    cases hpidx
  · left
    have hcell : w3.final_schedule p d = true := by
      rw [hcommit p hpidx, hApd]
      simp [decide_eq_true hdb]
    exact (is_assigned_eq_true_iff w3 p).mpr ⟨d, hmid.1.nd ▸ hdb, hcell⟩
  · right
    have hiBidx : iB ∈ open_idx b := ((mem_badOf_iff b A iB).mp hiB).1
    obtain ⟨hiBw, hiBopen⟩ := (mem_open_idx_iff b iB).mp hiBidx
    have hposB : 0 < badnessOf b A iB :=
      Nat.lt_of_lt_of_le hpos (badness_le_of_badOf b A hiB hpidx)
    obtain ⟨d1, hd1, hAd1⟩ := badnessOf_pos_exists b A iB hposB
    have hcell : w3.final_schedule iB d1 = true := by
      rw [hcommit d1, hAd1]
      simp [decide_eq_true hd1]
    have hclosed : is_assigned w3 iB = true :=
      (is_assigned_eq_true_iff w3 iB).mpr ⟨d1, hmid.1.nd ▸ hd1, hcell⟩
    have := openCount_lt_of_mid hmid iB hiBw hiBopen hclosed
    rw [openCount_congr w b hfe hst] at this
    exact this

/-! ## Induction along the `num_watchstanders` rounds of `develop` -/

theorem develop_go_static (oracle : WB → Option Sol) (hs : SoundOracle oracle)
    (rng : Nat → Bool) :
    ∀ (n : Nat) (w : WB) (k : Nat) (w' : WB) (k' : Nat),
      develop_go oracle rng n w k = .ok (w', k') → StaticEq w w' := by
  intro n
  induction n with
  | zero =>
    intro w k w' k' h
    rw [develop_go] at h
    cases h
    exact staticEq_refl w
  | succ m ih =>
    intro w k w' k' h
    rw [develop_go] at h
    cases hit : iterate_assignment oracle rng w k with
    | error e => rw [hit] at h; cases h
    | ok r =>
      obtain ⟨w1, k1⟩ := r
      rw [hit] at h
      simp only at h
      exact staticEq_trans (iterate_static oracle hs rng w k w1 k1 hit)
        (ih w1 k1 w' k' h)

theorem develop_go_assigned_mono (oracle : WB → Option Sol)
    (hs : SoundOracle oracle) (rng : Nat → Bool) :
    ∀ (n : Nat) (w : WB) (k : Nat) (w' : WB) (k' : Nat),
      develop_go oracle rng n w k = .ok (w', k') →
      ∀ q, is_assigned w q = true → is_assigned w' q = true := by
  intro n
  induction n with
  | zero =>
    intro w k w' k' h q hq
    rw [develop_go] at h
    cases h
    exact hq
  | succ m ih =>
    intro w k w' k' h q hq
    rw [develop_go] at h
    cases hit : iterate_assignment oracle rng w k with
    | error e => rw [hit] at h; cases h
    | ok r =>
      obtain ⟨w1, k1⟩ := r
      rw [hit] at h
      simp only at h
      exact ih w1 k1 w' k' h q
        (iterate_assigned_mono oracle hs rng w k w1 k1 hit q hq)

theorem develop_go_allClaimed (oracle : WB → Option Sol)
    (hs : SoundOracle oracle) (rng : Nat → Bool) :
    ∀ (n : Nat) (w : WB) (k : Nat) (w' : WB) (k' : Nat),
      develop_go oracle rng n w k = .ok (w', k') →
      AllClaimed w → AllClaimed w' := by
  intro n
  induction n with
  | zero =>
    intro w k w' k' h hall
    rw [develop_go] at h
    cases h
    exact hall
  | succ m ih =>
    intro w k w' k' h hall
    rw [develop_go] at h
    cases hit : iterate_assignment oracle rng w k with
    | error e => rw [hit] at h; cases h
    | ok r =>
      obtain ⟨w1, k1⟩ := r
      rw [hit] at h
      simp only at h
      exact ih w1 k1 w' k' h (iterate_allClaimed oracle hs rng w k w1 k1 hit hall)

theorem develop_go_cover (oracle : WB → Option Sol) (hs : SoundOracle oracle)
    (rng : Nat → Bool) :
    ∀ (n : Nat) (w : WB) (k : Nat) (w' : WB) (k' : Nat),
      develop_go oracle rng n w k = .ok (w', k') → CostPos w →
      (AllClaimed w' ∨ openCount w' + n ≤ openCount w) := by
  intro n
  induction n with
  | zero =>
    intro w k w' k' h _
    rw [develop_go] at h
    cases h
    exact Or.inr (by omega)
  | succ m ih =>
    intro w k w' k' h hcp
    rw [develop_go] at h
    cases hit : iterate_assignment oracle rng w k with
    | error e => rw [hit] at h; cases h
    | ok r =>
      obtain ⟨w1, k1⟩ := r
      rw [hit] at h
      simp only at h
      have hcp1 : CostPos w1 :=
        costPos_congr w w1 (iterate_static oracle hs rng w k w1 k1 hit) hcp
      by_cases hall : AllClaimed w
      · exact Or.inl (develop_go_allClaimed oracle hs rng m w1 k1 w' k' h
          (iterate_allClaimed oracle hs rng w k w1 k1 hit hall))
      · rcases iterate_progress oracle hs rng w k w1 k1 hit hcp hall with h1 | h1
        · exact Or.inl (develop_go_allClaimed oracle hs rng m w1 k1 w' k' h h1)
        · rcases ih w1 k1 w' k' h hcp1 with h2 | h2
          · exact Or.inl h2
          · exact Or.inr (by omega)

theorem develop_go_unclaimed_open (oracle : WB → Option Sol)
    (hs : SoundOracle oracle) (rng : Nat → Bool) :
    ∀ (n : Nat) (w : WB) (k : Nat) (w' : WB) (k' : Nat),
      develop_go oracle rng n w k = .ok (w', k') → 1 ≤ n →
      ∀ d, d < w'.num_days → dayClaimed w' d = false →
        ∃ p, p < w'.num_watchstanders ∧ is_assigned w' p = false := by
  intro n
  induction n with
  | zero =>
    intro w k w' k' _ hn
    omega
  | succ m ih =>
    intro w k w' k' h _
    rw [develop_go] at h
    cases hit : iterate_assignment oracle rng w k with
    | error e => rw [hit] at h; cases h
    | ok r =>
      obtain ⟨w1, k1⟩ := r
      rw [hit] at h
      simp only at h
      cases m with
      | zero =>
        rw [develop_go] at h
        cases h
        exact iterate_unclaimed_open oracle hs rng w k w' k' hit
      | succ mm =>
        exact ih w1 k1 w' k' h (by omega)

theorem develop_go_locked (oracle : WB → Option Sol) (hs : SoundOracle oracle)
    (rng : Nat → Bool) :
    ∀ (n : Nat) (w : WB) (k : Nat) (w' : WB) (k' : Nat),
      develop_go oracle rng n w k = .ok (w', k') → CostPos w → MutexFree w →
      openCount w ≤ n →
      ∀ p d, p < w.num_watchstanders → d < w.num_days →
        w.locked_in_days p d = true → is_assigned w' p = true := by
  intro n
  induction n with
  | zero =>
    intro w k w' k' h _ _ hcnt p d hp hd hl
    rw [develop_go] at h
    cases h
    cases ha : is_assigned w p with
    | true => rfl
    | false =>
      have := openCount_pos w p hp ha
      omega
  | succ m ih =>
    intro w k w' k' h hcp hmx hcnt p d hp hd hl
    rw [develop_go] at h
    cases hit : iterate_assignment oracle rng w k with
    | error e => rw [hit] at h; cases h
    | ok r =>
      obtain ⟨w1, k1⟩ := r
      rw [hit] at h
      simp only at h
      have hst1 := iterate_static oracle hs rng w k w1 k1 hit
      cases ha : is_assigned w p with
      | true =>
        exact develop_go_assigned_mono oracle hs rng m w1 k1 w' k' h p
          (iterate_assigned_mono oracle hs rng w k w1 k1 hit p ha)
      | false =>
        rcases iterate_locked_progress oracle hs rng w k w1 k1 hit hcp hmx p d
          hp hd ha hl with h1 | h1
        · exact develop_go_assigned_mono oracle hs rng m w1 k1 w' k' h p h1
        · have hle := iterate_openCount_le oracle hs rng w k w1 k1 hit
          exact ih w1 k1 w' k' h (costPos_congr w w1 hst1 hcp)
            (mutexFree_congr w w1 hst1 hmx) (by omega) p d (hst1.nw ▸ hp)
            (hst1.nd ▸ hd) (by rw [hst1.lk]; exact hl)

theorem develop_go_colInv (oracle : WB → Option Sol) (hs : SoundOracle oracle)
    (rng : Nat → Bool) :
    ∀ (n : Nat) (w : WB) (k : Nat) (w' : WB) (k' : Nat),
      develop_go oracle rng n w k = .ok (w', k') → ColInv w → ColInv w' := by
  intro n
  induction n with
  | zero =>
    intro w k w' k' h hi
    rw [develop_go] at h
    cases h
    exact hi
  | succ m ih =>
    intro w k w' k' h hi
    rw [develop_go] at h
    cases hit : iterate_assignment oracle rng w k with
    | error e => rw [hit] at h; cases h
    | ok r =>
      obtain ⟨w1, k1⟩ := r
      rw [hit] at h
      simp only at h
      exact ih w1 k1 w' k' h (iterate_colInv oracle hs rng w k w1 k1 hit hi)

theorem develop_go_conflictInv (oracle : WB → Option Sol) (hs : SoundOracle oracle)
    (rng : Nat → Bool) :
    ∀ (n : Nat) (w : WB) (k : Nat) (w' : WB) (k' : Nat),
      develop_go oracle rng n w k = .ok (w', k') → ConflictInv w → ConflictInv w' := by
  intro n
  induction n with
  | zero =>
    intro w k w' k' h hi
    rw [develop_go] at h
    cases h
    exact hi
  | succ m ih =>
    intro w k w' k' h hi
    rw [develop_go] at h
    cases hit : iterate_assignment oracle rng w k with
    | error e => rw [hit] at h; cases h
    | ok r =>
      obtain ⟨w1, k1⟩ := r
      rw [hit] at h
      simp only at h
      exact ih w1 k1 w' k' h (iterate_conflictInv oracle hs rng w k w1 k1 hit hi)

theorem develop_go_lockInv (oracle : WB → Option Sol) (hs : SoundOracle oracle)
    (rng : Nat → Bool) :
    ∀ (n : Nat) (w : WB) (k : Nat) (w' : WB) (k' : Nat),
      develop_go oracle rng n w k = .ok (w', k') → MutexFree w → LockInv w →
      LockInv w' := by
  intro n
  induction n with
  | zero =>
    intro w k w' k' h _ hi
    rw [develop_go] at h
    cases h
    exact hi
  | succ m ih =>
    intro w k w' k' h hmx hi
    rw [develop_go] at h
    cases hit : iterate_assignment oracle rng w k with
    | error e => rw [hit] at h; cases h
    | ok r =>
      obtain ⟨w1, k1⟩ := r
      rw [hit] at h
      simp only at h
      have hst1 := iterate_static oracle hs rng w k w1 k1 hit
      exact ih w1 k1 w' k' h (mutexFree_congr w w1 hst1 hmx)
        (iterate_lockInv oracle hs rng w k w1 k1 hit hmx hi)

theorem develop_go_spacingInv (oracle : WB → Option Sol) (hs : SoundOracle oracle)
    (rng : Nat → Bool) :
    ∀ (n : Nat) (w : WB) (k : Nat) (w' : WB) (k' : Nat),
      develop_go oracle rng n w k = .ok (w', k') → SpacingInv w → SpacingInv w' := by
  intro n
  induction n with
  | zero =>
    intro w k w' k' h hi
    rw [develop_go] at h
    cases h
    exact hi
  | succ m ih =>
    intro w k w' k' h hi
    rw [develop_go] at h
    cases hit : iterate_assignment oracle rng w k with
    | error e => rw [hit] at h; cases h
    | ok r =>
      obtain ⟨w1, k1⟩ := r
      rw [hit] at h
      simp only at h
      exact ih w1 k1 w' k' h (iterate_spacingInv oracle hs rng w k w1 k1 hit hi)

/-! ## Facts about the constructor state -/

theorem day_cost_pos (num_days first_monday : Nat) (holiday : Nat → Bool)
    (i : Nat) : 0 < day_cost num_days first_monday holiday i := by
  unfold day_cost
  split <;> split <;> omega

theorem initWB_costPos (c : WBConfig) : CostPos (initWB c) := fun d _ =>
  day_cost_pos c.num_days c.first_monday c.holiday d

theorem initWB_is_assigned (c : WBConfig) (p : Nat) :
    is_assigned (initWB c) p = false := by
  simp [is_assigned, initWB]

theorem initWB_colInv (c : WBConfig) : ColInv (initWB c) := by
  intro d _
  have : colSum (initWB c) d = 0 := by
    rw [colSum, List.sum_eq_zero_iff]
    intro x hx
    obtain ⟨p, _, rfl⟩ := List.mem_map.mp hx
    rfl
  omega

theorem initWB_conflictInv (c : WBConfig) : ConflictInv (initWB c) :=
  fun _ _ _ _ _ => rfl

theorem initWB_lockInv (c : WBConfig) : LockInv (initWB c) :=
  fun p _ _ _ _ => Or.inl (initWB_is_assigned c p)

theorem initWB_spacingInv (c : WBConfig) : SpacingInv (initWB c) := by
  intro p d _ _
  have : finalWindowSum (initWB c) p d = 0 := by
    rw [finalWindowSum, List.sum_eq_zero_iff]
    intro x hx
    obtain ⟨j, _, rfl⟩ := List.mem_map.mp hx
    rfl
  omega

theorem initWB_openCount (c : WBConfig) :
    openCount (initWB c) = c.num_watchstanders := by
  unfold openCount open_idx
  have : (fun p => ! is_assigned (initWB c) p) = fun _ : Nat => true := by
    funext p
    rw [initWB_is_assigned c p]
    rfl
  rw [this, List.filter_eq_self.mpr (fun _ _ => rfl), List.length_range]
  rfl

theorem initWB_mutexFree (c : WBConfig)
    (hmx : ∀ p d, ¬(c.schedule_conflicts p d = true ∧ c.locked_in_days p d = true)) :
    MutexFree (initWB c) := hmx

/-! ## Claim theorems: the schedule guarantees of a successful `develop` -/

/-- Claim C1: for every configuration with a nonempty roster, a sound solver
oracle, and any coin-flip stream, if the top-level `develop` completes
successfully then every calendar day has exactly one assigned watchstander in
the final schedule (the column sum over the whole roster is 1). -/
theorem C1_every_day_exactly_one (c : WBConfig) (oracle : WB → Option Sol)
    (rng : Nat → Bool) (hs : SoundOracle oracle)
    (hW : 1 ≤ c.num_watchstanders) (w' : WB)
    (hok : develop oracle rng (initWB c) = .ok w') :
    ∀ d, d < c.num_days → colSum w' d = 1 := by
  rw [develop] at hok
  cases hgo : develop_go oracle rng (initWB c).num_watchstanders (initWB c) 0 with
  | error e => rw [hgo] at hok; cases hok
  | ok r =>
    obtain ⟨w1, k1⟩ := r
    rw [hgo] at hok
    simp only at hok
    rw [Except.ok.injEq] at hok
    subst hok
    have hst := develop_go_static oracle hs rng _ _ _ _ _ hgo
    have hcol := develop_go_colInv oracle hs rng _ _ _ _ _ hgo (initWB_colInv c)
    have hnw : (initWB c).num_watchstanders = c.num_watchstanders := rfl
    have hall : AllClaimed w1 := by
      rcases develop_go_cover oracle hs rng _ _ _ _ _ hgo (initWB_costPos c)
        with h1 | h1
      · exact h1
      · rw [initWB_openCount c, hnw] at h1
        intro d hd
        by_contra hun
        have hun' : dayClaimed w1 d = false := Bool.eq_false_iff.mpr hun
        obtain ⟨p, hpw, hopen⟩ := develop_go_unclaimed_open oracle hs rng _ _ _
          _ _ hgo (by rw [hnw]; exact hW) d hd hun'
        have := openCount_pos w1 p hpw hopen
        omega
    intro d hd
    have hd1 : d < w1.num_days := by
      rw [hst.nd]
      exact hd
    have h1 := one_le_colSum_of_dayClaimed w1 d (hall d hd1)
    have h2 := hcol d hd1
    omega

/-- Claim C2: on a valid configuration (mutually exclusive availability
matrices) with a sound solver oracle, a successful `develop` respects the
availability matrices: conflicted cells stay unassigned and locked-in cells
are assigned. -/
theorem C2_availability_respected (c : WBConfig) (oracle : WB → Option Sol)
    (rng : Nat → Bool) (hs : SoundOracle oracle)
    (hmx : ∀ p d, ¬(c.schedule_conflicts p d = true ∧ c.locked_in_days p d = true))
    (w' : WB) (hok : develop oracle rng (initWB c) = .ok w') :
    (∀ p d, p < c.num_watchstanders → d < c.num_days →
      c.schedule_conflicts p d = true → w'.final_schedule p d = false) ∧
    (∀ p d, p < c.num_watchstanders → d < c.num_days →
      c.locked_in_days p d = true → w'.final_schedule p d = true) := by
  rw [develop] at hok
  cases hgo : develop_go oracle rng (initWB c).num_watchstanders (initWB c) 0 with
  | error e => rw [hgo] at hok; cases hok
  | ok r =>
    obtain ⟨w1, k1⟩ := r
    rw [hgo] at hok
    simp only at hok
    rw [Except.ok.injEq] at hok
    subst hok
    have hst := develop_go_static oracle hs rng _ _ _ _ _ hgo
    constructor
    · intro p d hp hd hc
      have hci := develop_go_conflictInv oracle hs rng _ _ _ _ _ hgo
        (initWB_conflictInv c)
      exact hci p d (by rw [hst.nw]; exact hp) (by rw [hst.nd]; exact hd)
        (by rw [hst.cf]; exact hc)
    · intro p d hp hd hl
      have hli := develop_go_lockInv oracle hs rng _ _ _ _ _ hgo
        (initWB_mutexFree c hmx) (initWB_lockInv c)
      have hassigned : is_assigned w1 p = true := by
        apply develop_go_locked oracle hs rng _ _ _ _ _ hgo (initWB_costPos c)
          (initWB_mutexFree c hmx) (by rw [initWB_openCount c]; exact Nat.le_refl _)
          p d hp hd hl
      rcases hli p d (by rw [hst.nw]; exact hp) (by rw [hst.nd]; exact hd)
        (by rw [hst.lk]; exact hl) with ho | hT
      · rw [hassigned] at ho
        cases ho
      · exact hT

/-- Claim C6: with a sound solver oracle, a successful `develop` leaves at
most one assigned day in every window of `days_off_between_duty + 1`
consecutive days of each watchstander's final row. -/
theorem C6_spacing_respected (c : WBConfig) (oracle : WB → Option Sol)
    (rng : Nat → Bool) (hs : SoundOracle oracle) (w' : WB)
    (hok : develop oracle rng (initWB c) = .ok w') :
    ∀ p d, p < c.num_watchstanders →
      d < c.num_days - c.days_off_between_duty → finalWindowSum w' p d ≤ 1 := by
  rw [develop] at hok
  cases hgo : develop_go oracle rng (initWB c).num_watchstanders (initWB c) 0 with
  | error e => rw [hgo] at hok; cases hok
  | ok r =>
    obtain ⟨w1, k1⟩ := r
    rw [hgo] at hok
    simp only at hok
    rw [Except.ok.injEq] at hok
    subst hok
    have hst := develop_go_static oracle hs rng _ _ _ _ _ hgo
    intro p d hp hd
    have hsi := develop_go_spacingInv oracle hs rng _ _ _ _ _ hgo
      (initWB_spacingInv c)
    exact hsi p d (by rw [hst.nw]; exact hp) (by rw [hst.nd, hst.sp]; exact hd)

/-- Claim C10: finalization is exactly "some true cell in the row"
(`is_assigned`), so committing a solver assignment that gives a watchstander
zero duty days leaves them open: they stay in `open_idx` (the basis of the
badness partition of `find_assignments`) and every later model still applies
the `[min_days, max_days]` duty-bound constraint to them rather than the
finalized sum-0 constraint. -/
theorem C10_zero_day_commit_stays_open (w : WB) (A : Sol) (p : Nat)
    (hp : p < w.num_watchstanders) (hopen : is_assigned w p = false)
    (hzero : ∀ d, d < w.num_days → A p d = false) :
    (∀ q, is_assigned w q = true ↔
      ∃ d, d < w.num_days ∧ w.final_schedule q d = true) ∧
    is_assigned (assign w A p) p = false ∧
    p ∈ open_idx (assign w A p) ∧
    (∀ B, build_model_sat (assign w A p) B = true →
      w.min_days ≤ shiftRowSum (assign w A p) B p ∧
        shiftRowSum (assign w A p) B p ≤ w.max_days) := by
  have hopen2 : is_assigned (assign w A p) p = false := by
    rw [is_assigned_eq_false_iff]
    intro d hd
    have hdw : d < w.num_days := hd
    rw [assign_final, hzero d hdw, (is_assigned_eq_false_iff w p).mp hopen d hdw]
    simp
  refine ⟨fun q => is_assigned_eq_true_iff w q, hopen2, ?_, ?_⟩
  · exact (mem_open_idx_iff (assign w A p) p).mpr ⟨hp, hopen2⟩
  · intro B hB
    exact sat_open_bounds (assign w A p) B p hB hp hopen2

/-! ## Soundness of the finite candidate oracle, and infeasibility helpers -/

theorem oracleOf_sound (cands : List Sol) : SoundOracle (oracleOf cands) := by
  intro w A h
  unfold oracleOf at h
  exact List.find?_some h

theorem sat_false_of_locked_assigned (w : WB) (p d : Nat)
    (hp : p < w.num_watchstanders) (hd : d < w.num_days)
    (ha : is_assigned w p = true) (hl : w.locked_in_days p d = true)
    (hc : w.schedule_conflicts p d = false) (A : Sol) :
    build_model_sat w A = false := by
  cases hfa : build_model_sat w A with
  | false => rfl
  | true =>
    have h1 := sat_locked w A p d hfa hp hd hc hl
    have h2 := sat_open_shift_false w A p d hfa hp ha hd
    rw [h1] at h2
    cases h2

theorem sat_false_of_all_conflict_unclaimed (w : WB) (d : Nat)
    (hd : d < w.num_days) (hun : dayClaimed w d = false)
    (hconf : ∀ p, p < w.num_watchstanders → w.schedule_conflicts p d = true)
    (A : Sol) : build_model_sat w A = false := by
  cases hfa : build_model_sat w A with
  | false => rfl
  | true =>
    obtain ⟨p, hp, _, hA⟩ := sat_unclaimed_exists_open w A d hfa hd hun
    have := sat_conflict w A p d hfa hp hd (hconf p hp)
    rw [hA] at this
    cases this

theorem stateC5x_infeasible (m M : Nat) (A : Sol) :
    build_model_sat { stateC5x with min_days := m, max_days := M } A = false :=
  sat_false_of_locked_assigned _ 1 0 (by show (1 : Nat) < 2; decide)
    (by show (0 : Nat) < 1; decide)
    (by show is_assigned stateC5x 1 = true; decide)
    (by show stateC5x.locked_in_days 1 0 = true; decide)
    (by show stateC5x.schedule_conflicts 1 0 = false; decide) A

theorem outC4x_infeasible (m M : Nat) (A : Sol) :
    build_model_sat { outC4x with min_days := m, max_days := M } A = false :=
  sat_false_of_locked_assigned _ 0 0 (by show (0 : Nat) < 2; decide)
    (by show (0 : Nat) < 2; decide)
    (by show is_assigned outC4x 0 = true; decide)
    (by show outC4x.locked_in_days 0 0 = true; decide)
    (by show outC4x.schedule_conflicts 0 0 = false; decide) A

theorem cfgC5w_infeasible (m M : Nat) (A : Sol) :
    build_model_sat { initWB cfgC5w with min_days := m, max_days := M } A = false :=
  sat_false_of_all_conflict_unclaimed _ 0 (by show (0 : Nat) < 1; decide)
    (by show dayClaimed (initWB cfgC5w) 0 = false; decide)
    (by
      show ∀ p, p < (initWB cfgC5w).num_watchstanders →
        (initWB cfgC5w).schedule_conflicts p 0 = true
      decide) A

/-! ## Behaviour of the failure-analysis ladder of `solve_model` -/

theorem deadlockDay_some_facts (w : WB) (d : Nat) (h : deadlockDay w = some d) :
    d < w.num_days ∧ ∀ p, p < w.num_watchstanders →
      w.schedule_conflicts p d = true := by
  unfold deadlockDay at h
  refine ⟨List.mem_range.mp (List.mem_of_find?_eq_some h), ?_⟩
  intro p hp
  have hpred := List.find?_some h
  rw [List.all_eq_true] at hpred
  exact hpred p (List.mem_range.mpr hp)

theorem solve_model_go_deadlock (oracle : WB → Option Sol) :
    ∀ (fuel : Nat) (w : WB) (d : Nat),
      solve_model_go oracle fuel w = .error (.deadlock d) →
      d < w.num_days ∧ ∀ p, p < w.num_watchstanders →
        w.schedule_conflicts p d = true := by
  intro fuel
  induction fuel with
  | zero =>
    intro w d h
    rw [solve_model_go] at h
    cases ho : oracle w with
    | some A => rw [ho] at h; cases h
    | none =>
      rw [ho] at h
      cases hdl : deadlockDay w with
      | some d0 =>
        rw [hdl] at h
        injection h with h1
        injection h1 with h2
        subst h2
        exact deadlockDay_some_facts w d0 hdl
      | none =>
        rw [hdl] at h
        injection h with h1
        cases h1
  | succ f ih =>
    intro w d h
    rw [solve_model_go] at h
    cases ho : oracle w with
    | some A => rw [ho] at h; cases h
    | none =>
      rw [ho] at h
      cases hdl : deadlockDay w with
      | some d0 =>
        rw [hdl] at h
        injection h with h1
        injection h1 with h2
        subst h2
        exact deadlockDay_some_facts w d0 hdl
      | none =>
        rw [hdl] at h
        by_cases h3 : 0 < w.min_days
        · rw [if_pos h3] at h
          exact ih (relax w) d h
        · rw [if_neg h3] at h
          injection h with h1
          cases h1

theorem solve_model_go_none_unsat :
    ∀ (fuel : Nat) (w : WB), deadlockDay w = none →
      solve_model_go (fun _ => none) fuel w = .error .unsatisfiable := by
  intro fuel
  induction fuel with
  | zero =>
    intro w hdl
    rw [solve_model_go]
    simp only [hdl]
  | succ f ih =>
    intro w hdl
    rw [solve_model_go]
    simp only [hdl]
    by_cases h3 : 0 < w.min_days
    · rw [if_pos h3]
      exact ih (relax w) hdl
    · rw [if_neg h3]

theorem solve_model_unsat_of_none (w : WB) (hdl : deadlockDay w = none) :
    solve_model (fun _ => none) w = .error .unsatisfiable :=
  solve_model_go_none_unsat w.min_days w hdl

theorem solve_model_relax_step (oracle : WB → Option Sol) (w : WB)
    (h1 : oracle w = none) (h2 : deadlockDay w = none) (h3 : 0 < w.min_days) :
    solve_model oracle w = solve_model oracle (relax w) := by
  unfold solve_model
  cases hm : w.min_days with
  | zero => omega
  | succ m =>
    have h4 : (relax w).min_days = m := by
      show w.min_days - 1 = m
      omega
    rw [h4]
    rw [solve_model_go]
    simp only [h1, h2]
    rw [if_pos h3]

/-! ## Claim C3: the duty bounds are not recomputed from the remaining open
days and people at round starts -/

/-- Claim C3 counterexample: in the `cfgC3x` run, round 1 succeeds and
finalizes two watchstanders, leaving one open day and one open watchstander,
for which the spec's recomputation demands `maxDays = 1`; but the state that
the next round's `build_model` reads still carries the constructor-time
bounds `min_days = 1`, `max_days = 2`.  The bounds are therefore not
recomputed at the start of every round. -/
theorem C3_counterexample :
    (iterate_assignment oracleC3x rngFalse (initWB cfgC3x) 0).isOk = true ∧
    openDayCount outC3x = 1 ∧ openCount outC3x = 1 ∧
    outC3x.min_days = 1 ∧ outC3x.max_days = 2 ∧
    spec_max_days (openDayCount outC3x) (openCount outC3x) = 1 ∧
    outC3x.max_days ≠ spec_max_days (openDayCount outC3x) (openCount outC3x) := by
  exact ⟨rfl, rfl, rfl, rfl, rfl, rfl, by decide⟩

/-- Claim C3 amended: the duty bounds are computed once by the constructor
(where they do equal the spec's formula, since all days and people are then
open) and afterwards change only through the infeasibility relaxation, which
decrements `min_days` and increments `max_days` in lock step; they are never
recomputed from the remaining open days and open people. -/
theorem C3_amended_bounds (c : WBConfig) (oracle : WB → Option Sol)
    (hs : SoundOracle oracle) (w w' : WB) (A : Sol)
    (hok : solve_model oracle w = .ok (w', A)) :
    ((initWB c).min_days = spec_min_days c.num_days c.num_watchstanders ∧
      (initWB c).max_days = spec_max_days c.num_days c.num_watchstanders) ∧
    (w'.min_days ≤ w.min_days ∧ w.max_days ≤ w'.max_days ∧
      w.min_days - w'.min_days = w'.max_days - w.max_days) := by
  obtain ⟨_, _, _, k, hk, hmin, hmax⟩ := solve_model_ok oracle hs w w' A hok
  exact ⟨⟨rfl, rfl⟩, by omega, by omega, by omega⟩

theorem C3_witness :
    solveOutC3.min_days ≤ (initWB cfgC3x).min_days ∧
    (initWB cfgC3x).max_days ≤ solveOutC3.max_days := by
  have h := C3_amended_bounds cfgC3x oracleC3x (oracleOf_sound _)
    (initWB cfgC3x) solveOutC3 solveSolC3 rfl
  exact ⟨h.2.1, h.2.2.1⟩

/-! ## Claim C4: `develop` always runs `num_watchstanders` rounds, even after
the open set empties -/

/-- Claim C4 counterexample: in the `cfgC4x` run, round 1 succeeds and
finalizes every watchstander (the all-tie branch), so per the claim no
further build/solve round would execute and `develop` would succeed; but the
code runs another round, whose model is infeasible (the locked cell of the
now-finalized watchstander contradicts the sum-0 constraint), and `develop`
fails with the unsatisfiable error. -/
theorem C4_counterexample :
    (iterate_assignment oracleC4x rngFalse (initWB cfgC4x) 0).isOk = true ∧
    openCount outC4x = 0 ∧
    develop oracleC4x rngFalse (initWB cfgC4x) = .error .unsatisfiable := by
  exact ⟨rfl, rfl, rfl⟩

/-- Claim C4 amended: `develop` executes exactly `num_watchstanders` rounds
regardless of the open set; a round whose open set is empty still builds and
solves a model, and when that solve succeeds the round commits nothing —
the extremal partitions are empty and the roster's final schedule is
unchanged. -/
theorem C4_amended_empty_round (oracle : WB → Option Sol)
    (hs : SoundOracle oracle) (rng : Nat → Bool) (w : WB) (k : Nat)
    (w3 : WB) (k3 : Nat) (hempty : open_idx w = [])
    (hok : iterate_assignment oracle rng w k = .ok (w3, k3)) :
    (∀ q d, q < w.num_watchstanders →
      w3.final_schedule q d = w.final_schedule q d) ∧
    (∀ A, goodOf w A = [] ∧ badOf w A = []) := by
  obtain ⟨b, A, hfe, hst, hsat, hmid, _⟩ :=
    iterate_assignment_ok oracle hs rng w k w3 k3 hok
  constructor
  · intro q d hq
    have hclosed : is_assigned b q = true := by
      cases hb : is_assigned b q with
      | true => rfl
      | false =>
        exfalso
        have hqw : is_assigned w q = false := by
          rw [← is_assigned_congr w b q hfe hst.nd]
          exact hb
        have : q ∈ open_idx w := (mem_open_idx_iff w q).mpr ⟨hq, hqw⟩
        rw [hempty] at this
        cases this
    rcases hmid.2 q with hbr | ⟨ho, _⟩
    · rw [hbr d, hfe q d]
    · rw [ho] at hclosed
      cases hclosed
  · intro A2
    constructor
    · rw [goodOf, hempty]
      rfl
    · rw [badOf, hempty]
      rfl

theorem C4_witness :
    outC4w2.final_schedule 0 0 = outC4w.final_schedule 0 0 := by
  have h := C4_amended_empty_round oracleC4w (oracleOf_sound _) rngFalse
    outC4w 0 outC4w2 kC4w2 rfl rfl
  exact h.1 0 0 (by decide)

/-! ## Claim C5: the deadlock scan checks every watchstander, not only the
open ones -/

/-- Claim C5 counterexample: in `stateC5x` every open watchstander is
conflicted on day 0 (the claim's deadlock condition), yet the solve step
reports the generic unsatisfiable error, not a deadlock, because the code's
scan requires every watchstander — including the finalized one — to be
conflicted.  The model is genuinely infeasible at every duty bound
(`stateC5x_infeasible`), so the always-infeasible oracle is honest here. -/
theorem C5_counterexample :
    solve_model (fun _ => none) stateC5x = .error .unsatisfiable ∧
    (open_idx stateC5x).all (fun p => stateC5x.schedule_conflicts p 0) = true ∧
    open_idx stateC5x ≠ [] ∧
    ((List.range stateC5x.num_watchstanders).all fun p =>
      stateC5x.schedule_conflicts p 0) = false := by
  exact ⟨rfl, rfl, by decide, rfl⟩

/-- Claim C5 amended: the failure ladder is as described except that the
deadlock check requires every watchstander in the roster — finalized ones
included — to be conflicted on the day; when a deadlock error is raised, the
named day index is in range and every watchstander is conflicted on it.
(The other two rungs are as claimed: `solve_model_relax_step` shows the
relax-and-retry equation while `min_days > 0`, and `solve_model_unsat_of_none`
the final unsatisfiable error, with no schedule returned in either failure.) -/
theorem C5_amended_deadlock_scan (oracle : WB → Option Sol) (w : WB) (d : Nat)
    (h : solve_model oracle w = .error (.deadlock d)) :
    d < w.num_days ∧ ∀ p, p < w.num_watchstanders →
      w.schedule_conflicts p d = true :=
  solve_model_go_deadlock oracle w.min_days w d h

theorem C5_witness :
    0 < (initWB cfgC5w).num_days ∧
    (initWB cfgC5w).schedule_conflicts 0 0 = true := by
  have h := C5_amended_deadlock_scan (fun _ => none) (initWB cfgC5w) 0 rfl
  exact ⟨h.1, h.2 0 (by decide)⟩

/-! ## Claim C7: a doubly-marked cell is not rejected; the conflict wins -/

/-- Claim C7 counterexample: watchstander 0 of `cfgC7x` is marked both
conflicted and locked in on day 0, yet `develop` raises no error at all —
it completes successfully — contradicting the claim that such a
configuration fails with a `ConfigurationError` before any solve attempt. -/
theorem C7_counterexample :
    cfgC7x.schedule_conflicts 0 0 = true ∧
    cfgC7x.locked_in_days 0 0 = true ∧
    (develop oracleC7x rngFalse (initWB cfgC7x)).isOk = true := by
  exact ⟨rfl, rfl, rfl⟩

/-- Claim C7 amended: no validation rejects a cell marked both conflict and
locked-in; the Python `elif` gives the conflict precedence, so the built
model forces the shift variable to 0 there — the lock-in constraint is
silently skipped — and solving proceeds. -/
theorem C7_amended_conflict_precedence (w : WB) (A : Sol) (p d : Nat)
    (h : build_model_sat w A = true) (hp : p < w.num_watchstanders)
    (hd : d < w.num_days) (hc : w.schedule_conflicts p d = true)
    (_hl : w.locked_in_days p d = true) : A p d = false :=
  sat_conflict w A p d h hp hd hc

theorem C7_witness : solC7x 0 0 = false := by
  exact C7_amended_conflict_precedence (initWB cfgC7x) solC7x 0 0 (by decide)
    (by decide) (by decide) rfl rfl

/-! ## Claim C8: Python list indexing in `parse_list` -/

theorem pySetTrue_out_of_range (l : List Bool) (i : Int)
    (h : (l.length : Int) ≤ i ∨ i < -(l.length : Int)) : pySetTrue l i = none := by
  unfold pySetTrue
  rw [if_neg (by omega), if_neg (by omega)]

theorem pySetTrue_nonneg (l : List Bool) (i : Int)
    (h : 0 ≤ i ∧ i < (l.length : Int)) :
    pySetTrue l i = some (l.set i.toNat true) := by
  unfold pySetTrue
  rw [if_pos h]

theorem pySetTrue_neg_wrap (l : List Bool) (i : Int)
    (h : -(l.length : Int) ≤ i ∧ i < 0) :
    pySetTrue l i = some (l.set ((l.length : Int) + i).toNat true) := by
  unfold pySetTrue
  rw [if_neg (by omega), if_pos h]

theorem parse_list_single_eq (roster : List Nat) (name : Nat) (i : Int)
    (out : List (List Bool)) (widx : Nat)
    (hsome : roster.findIdx? (fun a => a == name) = some widx) :
    parse_list roster (name, i, none) out =
      (match pySetTrue (out.getD widx []) i with
       | none => .error .indexError
       | some row1 => .ok (out.set widx row1)) := by
  simp only [parse_list]
  rw [hsome]

theorem parse_list_range_eq (roster : List Nat) (name : Nat) (first last : Int)
    (out : List (List Bool)) (widx : Nat)
    (hsome : roster.findIdx? (fun a => a == name) = some widx) :
    parse_list roster (name, first, some last) out =
      (match markRange (out.getD widx []) first last with
       | none => .error .indexError
       | some row1 => .ok (out.set widx row1)) := by
  simp only [parse_list]
  rw [hsome]

theorem getD_set_bool (l : List Bool) (k j : Nat) (b : Bool) :
    (l.set k b).getD j false =
      (if j = k ∧ k < l.length then b else l.getD j false) := by
  induction l generalizing k j with
  | nil => simp
  | cons a t ih =>
    cases k with
    | zero =>
      cases j with
      | zero => simp
      | succ j2 => simp
    | succ k2 =>
      cases j with
      | zero => simp
      | succ j2 =>
        simp only [List.set, List.getD_cons_succ, List.length_cons]
        rw [ih k2 j2]
        exact if_congr (by omega) rfl rfl

theorem markCount_ok (n : Nat) : ∀ (row : List Bool) (i : Int),
    0 ≤ i → i + (n : Int) ≤ (row.length : Int) →
    ∃ row1, markCount row i n = some row1 ∧ row1.length = row.length ∧
      ∀ j : Nat, row1.getD j false =
        (row.getD j false || decide (i ≤ (j : Int) ∧ (j : Int) < i + (n : Int))) := by
  induction n with
  | zero =>
    intro row i h0 _
    refine ⟨row, rfl, rfl, fun j => ?_⟩
    have hc : ¬(i ≤ (j : Int) ∧ (j : Int) < i + ((0 : Nat) : Int)) := by omega
    rw [decide_eq_false hc, Bool.or_false]
  | succ n ih =>
    intro row i h0 hle
    have hilt : i < (row.length : Int) := by omega
    have hset := pySetTrue_nonneg row i ⟨h0, hilt⟩
    obtain ⟨row1, h1, h2, h3⟩ := ih (row.set i.toNat true) (i + 1) (by omega)
      (by simp only [List.length_set]; omega)
    refine ⟨row1, ?_, ?_, fun j => ?_⟩
    · show (match pySetTrue row i with
            | none => none
            | some r => markCount r (i + 1) n) = some row1
      rw [hset]
      exact h1
    · rw [h2, List.length_set]
    · rw [h3 j, getD_set_bool]
      by_cases hj : (j : Int) = i
      · rw [if_pos ⟨by omega, by omega⟩, Bool.true_or]
        exact ((Bool.or_eq_true _ _).mpr (Or.inr (decide_eq_true (by omega)))).symm
      · have hn2 : ¬(j = i.toNat ∧ i.toNat < row.length) := fun hc => hj (by omega)
        rw [if_neg hn2]
        congr 1
        exact decide_eq_decide.mpr (by omega)

theorem markCount_of_overflow (n : Nat) : ∀ (row : List Bool) (i : Int),
    0 ≤ i → (row.length : Int) < i + (n : Int) → 1 ≤ n →
    markCount row i n = none := by
  induction n with
  | zero =>
    intro row i _ _ h1
    omega
  | succ n ih =>
    intro row i h0 hover _
    by_cases hi : i < (row.length : Int)
    · have hset := pySetTrue_nonneg row i ⟨h0, hi⟩
      show (match pySetTrue row i with
            | none => none
            | some r => markCount r (i + 1) n) = none
      rw [hset]
      exact ih (row.set i.toNat true) (i + 1) (by omega)
        (by simp only [List.length_set]; omega) (by omega)
    · have hset := pySetTrue_out_of_range row i (Or.inl (by omega))
      show (match pySetTrue row i with
            | none => none
            | some r => markCount r (i + 1) n) = none
      rw [hset]

theorem markRange_in_range (row : List Bool) (first last : Int)
    (h0 : 0 ≤ first) (hfl : first ≤ last) (hlast : last < (row.length : Int)) :
    ∃ row1, markRange row first last = some row1 ∧ row1.length = row.length ∧
      ∀ j : Nat, row1.getD j false =
        (row.getD j false || decide (first ≤ (j : Int) ∧ (j : Int) ≤ last)) := by
  obtain ⟨row1, h1, h2, h3⟩ :=
    markCount_ok (last + 1 - first).toNat row first h0 (by omega)
  refine ⟨row1, h1, h2, fun j => ?_⟩
  rw [h3 j]
  congr 1
  exact decide_eq_decide.mpr (by omega)

theorem markRange_of_overflow (row : List Bool) (first last : Int)
    (h0 : 0 ≤ first) (hfl : first ≤ last) (hlast : (row.length : Int) ≤ last) :
    markRange row first last = none :=
  markCount_of_overflow (last + 1 - first).toNat row first h0 (by omega) (by omega)

/-- Claim C8 counterexample: on a 3-day range, a rule whose resolved day
index is -1 (one day before `start_date`) does not fail with an out-of-range
error as claimed; Python's negative indexing silently marks the LAST day of
the range. -/
theorem C8_counterexample :
    ¬ (0 ≤ (-1 : Int)) ∧
    parse_list [0] (0, -1, none) [[false, false, false]] =
      .ok [[false, false, true]] := by
  exact ⟨by decide, rfl⟩

/-- Claim C8 amended: an unknown identifier fails (Python `ValueError`) for
both the single-day and the ranged entry shape.  A single-day rule fails with
an index error only when the resolved index falls outside
`-num_days .. num_days - 1`; an index in `0 .. num_days - 1` marks exactly
that day, while a negative index in `-num_days .. -1` silently marks the day
counted from the end of the range (Python list indexing) instead of raising
the claimed out-of-range error.  A ranged rule with `0 ≤ first ≤ last` marks
exactly the inclusive closed range `first .. last` when `last` is in range
(cells there become true, all others keep their value), and fails with the
index error — raised mid-loop by the Python `for` — when `last` runs past the
end of the range. -/
theorem C8_amended_parse (roster : List Nat) (name : Nat) (i : Int)
    (out : List (List Bool)) :
    (roster.findIdx? (fun a => a == name) = none →
      parse_list roster (name, i, none) out = .error .unknownPerson ∧
      ∀ last : Int,
        parse_list roster (name, i, some last) out = .error .unknownPerson) ∧
    (∀ widx, roster.findIdx? (fun a => a == name) = some widx →
      (((out.getD widx []).length : Int) ≤ i ∨
          i < -(((out.getD widx []).length : Int)) →
        parse_list roster (name, i, none) out = .error .indexError) ∧
      (0 ≤ i ∧ i < (((out.getD widx []).length : Int)) →
        parse_list roster (name, i, none) out =
          .ok (out.set widx ((out.getD widx []).set i.toNat true))) ∧
      (-(((out.getD widx []).length : Int)) ≤ i ∧ i < 0 →
        parse_list roster (name, i, none) out =
          .ok (out.set widx ((out.getD widx []).set
            ((((out.getD widx []).length : Int)) + i).toNat true))) ∧
      (∀ last : Int, 0 ≤ i → i ≤ last →
        last < (((out.getD widx []).length : Int)) →
        ∃ row1,
          parse_list roster (name, i, some last) out = .ok (out.set widx row1) ∧
          row1.length = (out.getD widx []).length ∧
          ∀ j : Nat, row1.getD j false =
            ((out.getD widx []).getD j false ||
              decide (i ≤ (j : Int) ∧ (j : Int) ≤ last))) ∧
      (∀ last : Int, 0 ≤ i → i ≤ last →
        (((out.getD widx []).length : Int)) ≤ last →
        parse_list roster (name, i, some last) out = .error .indexError)) := by
  constructor
  · intro hnone
    constructor
    · simp only [parse_list]
      rw [hnone]
    · intro last
      simp only [parse_list]
      rw [hnone]
  · intro widx hsome
    refine ⟨?_, ?_, ?_, ?_, ?_⟩
    · intro h
      rw [parse_list_single_eq roster name i out widx hsome,
        pySetTrue_out_of_range _ _ h]
    · intro h
      rw [parse_list_single_eq roster name i out widx hsome,
        pySetTrue_nonneg _ _ h]
    · intro h
      rw [parse_list_single_eq roster name i out widx hsome,
        pySetTrue_neg_wrap _ _ h]
    · intro last h0 hfl hlast
      obtain ⟨row1, h1, h2, h3⟩ :=
        markRange_in_range (out.getD widx []) i last h0 hfl hlast
      refine ⟨row1, ?_, h2, h3⟩
      rw [parse_list_range_eq roster name i last out widx hsome, h1]
    · intro last h0 hfl hlast
      rw [parse_list_range_eq roster name i last out widx hsome,
        markRange_of_overflow _ _ _ h0 hfl hlast]

theorem C8_witness :
    parse_list [5, 7] (7, 0, none) [[false], [false, false]] =
      .ok [[false], [true, false]] ∧
    parse_list [5, 7] (7, 0, some 1) [[false], [false, false]] =
      .ok [[false], [true, true]] := by
  have h := (C8_amended_parse [5, 7] 7 0 [[false], [false, false]]).2 1 rfl
  constructor
  · exact h.2.1 ⟨by decide, by decide⟩
  · obtain ⟨row1, hok, hlen, hcells⟩ := h.2.2.2.1 1 (by decide) (by decide) (by decide)
    have hl2 : row1.length = 2 := by simpa using hlen
    have hc0 := hcells 0
    have hc1 := hcells 1
    cases row1 with
    | nil =>
      simp only [List.length_nil] at hl2
      omega
    | cons a t =>
      cases t with
      | nil =>
        simp only [List.length_cons, List.length_nil] at hl2
        omega
      | cons b t2 =>
        cases t2 with
        | cons c t3 =>
          simp only [List.length_cons] at hl2
          omega
        | nil =>
          have ha : a = true := hc0.trans (by decide)
          have hb : b = true := hc1.trans (by decide)
          rw [ha, hb] at hok
          exact hok

/-! ## Claim C9: the successor of the last day is classified by the weekend
rule only -/

/-- Claim C9 counterexample: three weekdays 0..2 with a holiday on index 3
(the day after `end_date`).  The claim says the last day's cost reflects that
holiday exactly as it would a weekend, i.e. cost 5 (work→off, as
`day_cost_specC9` computes); the code's holiday query is bounded by
`end_date`, so the successor is classified work and the last day costs 4. -/
theorem C9_counterexample :
    day_cost 3 0 holC9x 2 = 4 ∧ day_cost_specC9 3 0 holC9x 2 = 5 ∧
    holC9x 3 = true ∧
    day_cost 3 0 holC9x 2 ≠ day_cost_specC9 3 0 holC9x 2 := by
  exact ⟨rfl, rfl, rfl, by decide⟩

theorem dayOff_congr_below (num_days first_monday : Nat) (h1 h2 : Nat → Bool)
    (hagree : ∀ i, i < num_days → h1 i = h2 i) (j : Nat) :
    dayOff num_days first_monday h1 j = dayOff num_days first_monday h2 j := by
  unfold dayOff
  by_cases hj : j < num_days
  · rw [hagree j hj]
  · have hjf : decide (j < num_days) = false := decide_eq_false hj
    rw [hjf]
    simp

theorem dayOff_at_num_days (num_days first_monday : Nat) (holiday : Nat → Bool) :
    dayOff num_days first_monday holiday num_days = isWeekend first_monday num_days := by
  unfold dayOff
  simp

/-- Claim C9 amended: the cost table depends on the holiday oracle only at
in-range indices, and the successor of the last day (index `num_days`) is
classified by the weekend rule alone: the last day's cost is literally the
cost formula with the successor's off/work status replaced by the weekend
test, so a holiday falling on the day after `end_date` never affects the last
day's cost (unlike a weekend there, which does). -/
theorem C9_amended_boundary (num_days first_monday : Nat)
    (holiday holiday2 : Nat → Bool)
    (hagree : ∀ i, i < num_days → holiday i = holiday2 i) :
    (∀ i, i < num_days → day_cost num_days first_monday holiday i =
      day_cost num_days first_monday holiday2 i) ∧
    (1 ≤ num_days →
      day_cost num_days first_monday holiday (num_days - 1) =
        (if dayOff num_days first_monday holiday (num_days - 1) then
          (if isWeekend first_monday num_days then 7 else 6)
        else
          (if isWeekend first_monday num_days then 5 else 4))) := by
  constructor
  · intro i _
    unfold day_cost
    rw [dayOff_congr_below num_days first_monday holiday holiday2 hagree i,
      dayOff_congr_below num_days first_monday holiday holiday2 hagree (i + 1)]
  · intro h1
    have hsucc : num_days - 1 + 1 = num_days := by omega
    unfold day_cost
    rw [hsucc, dayOff_at_num_days]

theorem C9_witness :
    day_cost 3 0 holC9x 2 = day_cost 3 0 (fun _ => false) 2 ∧
    day_cost 3 0 holC9x 2 =
      (if dayOff 3 0 holC9x 2 then (if isWeekend 0 3 then 7 else 6)
       else (if isWeekend 0 3 then 5 else 4)) := by
  have h := C9_amended_boundary 3 0 holC9x (fun _ => false) (by decide)
  exact ⟨h.1 2 (by decide), h.2 (by decide)⟩

/-! ## Witnesses for the schedule-guarantee theorems -/

theorem C1_witness : colSum outC1w 0 = 1 := by
  exact C1_every_day_exactly_one cfgC1w oracleC1w rngFalse (oracleOf_sound _)
    (by decide) outC1w rfl 0 (by decide)

theorem C2_witness : outC2w.final_schedule 0 0 = true := by
  exact (C2_availability_respected cfgC2w oracleC2w rngFalse (oracleOf_sound _)
    (fun p d h => Bool.noConfusion h.1) outC2w rfl).2 0 0 (by decide)
    (by decide) rfl

theorem C6_witness : finalWindowSum outC6w 0 0 ≤ 1 := by
  exact C6_spacing_respected cfgC6w oracleC6w rngFalse (oracleOf_sound _)
    outC6w rfl 0 0 (by decide) (by decide)

theorem C10_witness :
    is_assigned (assign (initWB cfgC1w) solZero 0) 0 = false := by
  exact (C10_zero_day_commit_stays_open (initWB cfgC1w) solZero 0 (by decide)
    (by decide) (fun d _ => rfl)).2.1

end Watchbill
